import Mathlib

/-!
Shallow embedding of the jsonthis serialization engine — the `Jsonthis`
class (jsonthis.ts) together with the schema module (schema.ts:
`VisitMap`, `evaluateJsonTraversalFn`, `JsonSchema`) — and proofs about
its behaviour.  JavaScript objects are modelled by heap addresses so
that reference identity is explicit; the mutable traversal state is
threaded explicitly through every function.
-/

namespace Jsonthis

/-- Identity of a JavaScript runtime constructor (a `Function` used as a
class).  `user` constructors model user-defined classes; the remaining
tags model the built-in constructors of primitive wrapper types. -/
inductive TypeTag where
  | user (id : Nat) (name : String)
  | stringT
  | numberT
  | booleanT
  | bigintT
  | symbolT
  | functionT
  | arrayT
deriving DecidableEq

/-- `Function.name` of a constructor, used in error messages. -/
def TypeTag.typeName : TypeTag → String
  | .user _ name => name
  | .stringT => "String"
  | .numberT => "Number"
  | .booleanT => "Boolean"
  | .bigintT => "BigInt"
  | .symbolT => "Symbol"
  | .functionT => "Function"
  | .arrayT => "Array"

/-- A JavaScript value.  Objects are represented by their heap address
(`vObj`), which models JavaScript reference identity.  Array literals
are kept structural because the engine handles arrays before any
identity bookkeeping, so it never stores or compares an array
reference. -/
inductive JsVal where
  | vUndefined
  | vNull
  | vBool (b : Bool)
  | vNum (n : Int)
  | vStr (s : String)
  | vBigInt (i : Int)
  | vSym (id : Nat)
  | vFunc (id : Nat)
  | vObj (addr : Nat)
  | vArr (elems : List JsVal)

/-- `value === null || value === undefined` (function `isNull`). -/
def isNull : JsVal → Bool
  | .vNull => true
  | .vUndefined => true
  | _ => false

/-- Whether `typeof value === "object"` holds in JavaScript: true for
plain objects, arrays, and — a JavaScript quirk — `null`. -/
def typeofObject : JsVal → Bool
  | .vNull => true
  | .vObj _ => true
  | .vArr _ => true
  | _ => false

/-- JavaScript strict equality `===` as far as the engine uses it.
Primitives compare by value; objects compare by reference, i.e. by heap
address.  Two `vArr` values always compare unequal: each array literal
in this embedding stands for a fresh array reference. -/
def jsEq : JsVal → JsVal → Bool
  | .vUndefined, .vUndefined => true
  | .vNull, .vNull => true
  | .vBool a, .vBool b => a == b
  | .vNum a, .vNum b => a == b
  | .vStr a, .vStr b => a == b
  | .vBigInt a, .vBigInt b => a == b
  | .vSym a, .vSym b => a == b
  | .vFunc a, .vFunc b => a == b
  | .vObj a, .vObj b => a == b
  | _, _ => false

/-- The visitation tracker (schema.ts, class `VisitMap`).  `depths` is
the stack of per-depth identity sets with the current (deepest) level at
the head; the JavaScript code stores the levels in an array with the
current level at index `currentDepth`, and `has` scans all of them, so
the order of levels is immaterial. -/
structure VisitMap where
  depths : List (List JsVal)
  currentDepth : Nat

/-- `new VisitMap()`: a single empty level at depth 0. -/
def VisitMap.init : VisitMap := ⟨[[]], 0⟩

/-- The `depth` getter. -/
def VisitMap.depth (m : VisitMap) : Nat := m.currentDepth

/-- `VisitMap.has`: scan every existing level for this identity. -/
def VisitMap.has (m : VisitMap) (value : JsVal) : Bool :=
  m.depths.any (fun level => level.any (fun v => jsEq v value))

/-- `VisitMap.add`: record the value at the current level.  With
balanced `dive`/`arise` calls the level stack is never empty; on an
empty stack the JavaScript code would fail at runtime, and this model
leaves the tracker unchanged. -/
def VisitMap.add (m : VisitMap) (value : JsVal) : VisitMap :=
  match m.depths with
  | [] => m
  | level :: rest => ⟨(value :: level) :: rest, m.currentDepth⟩

/-- `VisitMap.dive`: push a new empty level and go one level deeper. -/
def VisitMap.dive (m : VisitMap) : VisitMap :=
  ⟨[] :: m.depths, m.currentDepth + 1⟩

/-- `VisitMap.arise`: pop the current level and go one level up. -/
def VisitMap.arise (m : VisitMap) : VisitMap :=
  ⟨m.depths.tail, m.currentDepth - 1⟩

/-- `VisitMap.visit`: record a value and report whether it had been
visited before.  Only values with `typeof value === "object"`
participate; primitives are never tracked. -/
def VisitMap.visit (m : VisitMap) (value : JsVal) : Bool × VisitMap :=
  if typeofObject value then
    if m.has value then (true, m)
    else (false, m.add value)
  else (false, m)

/-- C2: `VisitMap.visit(v)` returns false and leaves the tracker
unchanged for every non-object value; for an object value it returns
true and leaves the tracker unchanged when the identity is present in
any currently-live depth level, and otherwise records the value at the
current depth level (the head of the level stack) and returns false. -/
theorem visitMap_visit_spec (m : VisitMap) (v : JsVal) (hm : m.depths ≠ []) :
    (typeofObject v = false → m.visit v = (false, m)) ∧
    (typeofObject v = true → m.has v = true → m.visit v = (true, m)) ∧
    (typeofObject v = true → m.has v = false →
      ∃ level rest, m.depths = level :: rest ∧
        m.visit v = (false, ⟨(v :: level) :: rest, m.currentDepth⟩)) := by
  refine ⟨fun h => ?_, fun h hh => ?_, fun h hh => ?_⟩
  · simp [VisitMap.visit, h]
  · simp [VisitMap.visit, h, hh]
  · match hd : m.depths with
    | [] => exact absurd hd hm
    | level :: rest =>
      refine ⟨level, rest, rfl, ?_⟩
      simp [VisitMap.visit, h, hh, VisitMap.add, hd]

/-- Witness for C2: the identity `vObj 0`, recorded at an enclosing
(non-current) level of a two-level tracker, is reported as already
visited with the tracker unchanged. -/
theorem visitMap_visit_spec_witness :
    (⟨[[JsVal.vObj 1], [JsVal.vObj 0]], 1⟩ : VisitMap).visit (JsVal.vObj 0) =
      (true, ⟨[[JsVal.vObj 1], [JsVal.vObj 0]], 1⟩) :=
  (visitMap_visit_spec ⟨[[JsVal.vObj 1], [JsVal.vObj 0]], 1⟩ (JsVal.vObj 0)
      (by simp)).2.1 rfl rfl

/-- A reference token standing for a `Jsonthis` engine instance.
JavaScript traversal functions of arity 4 receive the engine instance
itself; model traversal functions are pure, so the instance argument is
represented by its reference token. -/
structure EngineRef where
  id : Nat
deriving DecidableEq

/-- A serialized (JSON-compatible) value produced by the engine.
`oRaw` is a JavaScript value returned unchanged (for example an object
deferring to its own `toJSON` method, or a big integer kept as-is). -/
inductive Out where
  | oUndefined
  | oNull
  | oBool (b : Bool)
  | oNum (n : Int)
  | oStr (s : String)
  | oBigInt (i : Int)
  | oObj (fields : List (String × Out))
  | oArr (elems : List Out)
  | oRaw (v : JsVal)

/-- Whether a serialized value is JavaScript-falsy: `undefined`, `null`,
`false`, `0`, `0n` and the empty string are falsy; objects, arrays and
raw object values are always truthy. -/
def jsFalsy : Out → Bool
  | .oUndefined => true
  | .oNull => true
  | .oBool b => !b
  | .oNum n => n == 0
  | .oStr s => s == ""
  | .oBigInt i => i == 0
  | _ => false

/-- `serializedValue === undefined`. -/
def Out.isUndef : Out → Bool
  | .oUndefined => true
  | _ => false

/-- Key-casing policies accepted by the constructor. -/
inductive CaseKind where
  | camel
  | snake
  | pascal

/-- Options for the `toJson()` method: a user context forwarded to the
serializers and a per-call `maxDepth`. -/
structure ToJsonOptions where
  context : Option JsVal
  maxDepth : Option Int

/-- The traversal state threaded through a `toJson()` call: the most
recently entered structurally-traversed object and the visitation
tracker. -/
structure JsonTraversalState where
  parent : Option JsVal
  visited : VisitMap

/-- A traversal function, one of the three accepted shapes distinguished
by declared parameter count, or (`fnOther`) a callable whose declared
arity is none of 1, 2 and 4 and therefore carries no body the engine
could invoke. -/
inductive JsonTraversalFn (R : Type) where
  | fn1 (f : JsVal → R)
  | fn2 (f : JsVal → Option ToJsonOptions → R)
  | fn4 (f : EngineRef → JsonTraversalState → JsVal → Option ToJsonOptions → R)
  | fnOther (arity : Nat) (harity : arity ≠ 1 ∧ arity ≠ 2 ∧ arity ≠ 4)

/-- `fn.length`: the declared parameter count of a callable. -/
def JsonTraversalFn.length {R : Type} : JsonTraversalFn R → Nat
  | .fn1 _ => 1
  | .fn2 _ => 2
  | .fn4 _ => 4
  | .fnOther n _ => n

/-- A candidate policy value handed to the evaluator: absent
(`undefined`), a constant of the result type, or a callable. -/
inductive JsonTraversalCandidate (R : Type) where
  | undef
  | const (r : R)
  | callable (f : JsonTraversalFn R)

/-- Errors the engine can raise.  `outOfFuel` is a model artifact: the
recursion budget of the fuelled interpreter ran out. -/
inductive JsError where
  | circularReference (ref : JsVal) (state : JsonTraversalState)
  | invalidTraversalFnArity
  | outOfFuel

/-- schema.ts `evaluateJsonTraversalFn`: an absent candidate stays
absent, a non-callable candidate is returned unchanged, and a callable
is dispatched on its declared parameter count; any declared arity other
than 1, 2 or 4 raises "Invalid number of arguments for
JsonTraversalFn.". -/
def evaluateJsonTraversalFn {R : Type} (fn : JsonTraversalCandidate R)
    (jsonthis : EngineRef) (state : JsonTraversalState) (value : JsVal)
    (options : Option ToJsonOptions) : Except JsError (Option R) :=
  match fn with
  | .undef => .ok none
  | .callable f =>
    match f with
    | .fn1 g => .ok (some (g value))
    | .fn2 g => .ok (some (g value options))
    | .fn4 g => .ok (some (g jsonthis state value options))
    | .fnOther _ _ => .error .invalidTraversalFnArity
  | .const r => .ok (some r)

/-- Options of the `@JsonField` decorator: a `visible` rule (a constant
or a traversal function; the engine only tests whether its evaluated
result is exactly `false`, so the result is kept as a JavaScript value)
and an optional field serializer. -/
structure JsonFieldOptions where
  visible : JsonTraversalCandidate JsVal
  serializer : Option (JsonTraversalFn Out)

/-- The `{}` default used when a field is unknown to the schema. -/
def JsonFieldOptions.empty : JsonFieldOptions := ⟨.undef, none⟩

/-- A per-type schema: an optional whole-type serializer (set by the
`@JsonSerializer` decorator) and per-field options keyed by field name
in registration order. -/
structure JsonSchema where
  serializer : Option (JsonTraversalFn Out)
  definedFields : List (String × JsonFieldOptions)

/-- `schema.definedFields.get(propertyName)`. -/
def definedFieldsGet (fields : List (String × JsonFieldOptions)) (name : String) :
    Option JsonFieldOptions :=
  (fields.find? (fun p => p.1 == name)).map (fun p => p.2)

/-- Options for the `Jsonthis` constructor.  Fields JavaScript leaves
`undefined` are `none`; `keepNulls` is only ever tested for truthiness,
so it is a plain `Bool` (false when undefined), while `transformBigInt`
is compared against `false` with `===` and keeps the undefined case
apart. -/
structure JsonthisOptions where
  keepNulls : Bool
  case : Option CaseKind
  circularReferenceSerializer : Option (JsonTraversalFn Out)
  maxDepth : Option Int
  transformBigInt : Option Bool

/-- The external case-conversion utility (library `case-anything`)
supplied to the engine. -/
structure CaseFns where
  camelCase : String → String
  snakeCase : String → String
  pascalCase : String → String

/-- The `Jsonthis` class: constructor options plus the global serializer
registry (a `Map` from a constructor to a traversal function, modelled
as an association list in insertion order). -/
structure Jsonthis where
  options : JsonthisOptions
  serializers : List (TypeTag × JsonTraversalFn Out)

/-- `this.serializers.get(t)`; `Map.get(undefined)` is `undefined`. -/
def serializersGet (l : List (TypeTag × JsonTraversalFn Out)) (t : Option TypeTag) :
    Option (JsonTraversalFn Out) :=
  match t with
  | none => none
  | some tag => (l.find? (fun p => p.1 == tag)).map (fun p => p.2)

/-- `Map.set`: replace the entry if the key is present, else append. -/
def serializersSet (l : List (TypeTag × JsonTraversalFn Out)) (t : TypeTag)
    (f : JsonTraversalFn Out) : List (TypeTag × JsonTraversalFn Out) :=
  match l with
  | [] => [(t, f)]
  | (t', f') :: rest =>
    if t' = t then (t, f) :: rest else (t', f') :: serializersSet rest t f

/-- `Jsonthis.registerGlobalSerializer(target, serializer, allowOverride)`:
throws an error naming the type when a serializer is already registered
for `target` and overriding is not allowed, otherwise sets/replaces the
entry. -/
def registerGlobalSerializer (j : Jsonthis) (target : TypeTag)
    (serializer : JsonTraversalFn Out) (allowOverride : Bool) :
    Except String Jsonthis :=
  if (serializersGet j.serializers (some target)).isSome && !allowOverride then
    .error ("Serializer already registered for \"" ++ target.typeName ++ "\"")
  else .ok ⟨j.options, serializersSet j.serializers target serializer⟩

/-- `Jsonthis.propertyNameToString`: apply the configured casing policy
to a field name. -/
def propertyNameToString (caseFns : CaseFns) (options : JsonthisOptions)
    (name : String) : String :=
  match options.case with
  | some .camel => caseFns.camelCase name
  | some .snake => caseFns.snakeCase name
  | some .pascal => caseFns.pascalCase name
  | none => name

/-- A JavaScript object: its constructor, whether it exposes its own
`toJSON` method, and its own enumerable properties in iteration
order. -/
structure ObjNode where
  ctor : TypeTag
  hasToJSON : Bool
  fields : List (String × JsVal)

/-- The object heap, indexed by address. -/
abbrev Heap := List (Nat × ObjNode)

def heapGet (heap : Heap) (addr : Nat) : Option ObjNode :=
  (heap.find? (fun p => p.1 == addr)).map (fun p => p.2)

/-- The serialization environment: the engine instance with its
reference token, the schema store (what `JsonSchema.get` returns for
each constructor), the external case-conversion utility, and the object
heap. -/
structure Env where
  ref : EngineRef
  jsonthis : Jsonthis
  schemaStore : TypeTag → Option JsonSchema
  caseFns : CaseFns
  heap : Heap

/-- `value?.constructor`: `undefined` for `null` and `undefined`,
otherwise the runtime constructor of the value. -/
def constructorOf (heap : Heap) : JsVal → Option TypeTag
  | .vUndefined => none
  | .vNull => none
  | .vBool _ => some .booleanT
  | .vNum _ => some .numberT
  | .vStr _ => some .stringT
  | .vBigInt _ => some .bigintT
  | .vSym _ => some .symbolT
  | .vFunc _ => some .functionT
  | .vObj a => (heapGet heap a).map (fun node => node.ctor)
  | .vArr _ => some .arrayT

/-- `JsonSchema.get(t)` on an optional constructor. -/
def schemaGet (env : Env) (t : Option TypeTag) : Option JsonSchema :=
  t.bind env.schemaStore

/-- `JsonSchema.isPresent(t)`. -/
def schemaIsPresent (env : Env) (t : Option TypeTag) : Bool :=
  (schemaGet env t).isSome

/-- `Number.MAX_SAFE_INTEGER = 2^53 - 1`. -/
def maxSafeInteger : Int := 2 ^ 53 - 1

/-- `Number.MIN_SAFE_INTEGER = -(2^53 - 1)`. -/
def minSafeInteger : Int := -(2 ^ 53 - 1)

/-- `Jsonthis.serializeTrivialValue`: classify a value by its runtime
`typeof`, returning the serialized form and whether it was trivial.
For `typeof value === "object"` the own-`toJSON`-and-no-schema check
applies (`vNull` and `vArr` also have `typeof` "object" but both call
sites filter them out before calling this function; on `null` the
JavaScript `'toJSON' in value` test would itself crash).  Big integers
honour the `transformBigInt` option and the safe-integer range; symbols
and functions map to `undefined`; every remaining `typeof` falls into
the trivial default branch and is returned as-is. -/
def serializeTrivialValue (env : Env) (value : JsVal) : Out × Bool :=
  match value with
  | .vObj a =>
    match heapGet env.heap a with
    | some node =>
      if node.hasToJSON && !(schemaIsPresent env (some node.ctor)) then (.oRaw value, true)
      else (.oRaw value, false)
    | none => (.oRaw value, false)
  | .vNull => (.oRaw .vNull, false)
  | .vArr elems => (.oRaw (.vArr elems), false)
  | .vBigInt i =>
    if env.jsonthis.options.transformBigInt == some false then (.oBigInt i, true)
    else if maxSafeInteger < i || i < minSafeInteger then (.oStr (toString i), true)
    else (.oNum i, true)
  | .vSym _ => (.oUndefined, true)
  | .vFunc _ => (.oUndefined, true)
  | .vStr s => (.oStr s, true)
  | .vNum n => (.oNum n, true)
  | .vBool b => (.oBool b, true)
  | .vUndefined => (.oUndefined, true)

/-- JavaScript `a || b` where `a` is a function-or-undefined value. -/
def jsOr {α : Type} : Option α → Option α → Option α
  | some a, _ => some a
  | none, b => b

/-- JavaScript `a || b` on an optional number: `undefined` and `0` are
falsy. -/
def jsOrNum : Option Int → Option Int → Option Int
  | some n, b => if n = 0 then b else some n
  | none, b => b

/-- `options?.maxDepth || this.options.maxDepth || Infinity`, with
`none` standing for `Infinity`. -/
def effectiveMaxDepth (options : Option ToJsonOptions) (j : JsonthisOptions) :
    Option Int :=
  jsOrNum (options.bind (fun o => o.maxDepth)) (jsOrNum j.maxDepth none)

/-- `state.visited.depth > maxDepth`, with `none` as `Infinity`. -/
def depthExceeded (depth : Nat) (maxDepth : Option Int) : Bool :=
  match maxDepth with
  | none => false
  | some n => (depth : Int) > n

/-- C7: the traversal-function evaluator returns every non-callable
candidate unchanged and keeps an absent candidate absent; a callable is
dispatched on its declared parameter count — arity 1 is invoked with
the value only, arity 2 with the value and the call options, arity 4
with the engine instance, the traversal state, the value and the call
options — and a callable of any other declared arity raises the
invalid-arity error. -/
theorem evaluateJsonTraversalFn_spec {R : Type} (jt : EngineRef)
    (st : JsonTraversalState) (v : JsVal) (o : Option ToJsonOptions) :
    (evaluateJsonTraversalFn (.undef : JsonTraversalCandidate R) jt st v o = .ok none) ∧
    (∀ r : R, evaluateJsonTraversalFn (.const r) jt st v o = .ok (some r)) ∧
    (∀ f : JsonTraversalFn R, f.length = 1 → ∃ g, f = .fn1 g ∧
      evaluateJsonTraversalFn (.callable f) jt st v o = .ok (some (g v))) ∧
    (∀ f : JsonTraversalFn R, f.length = 2 → ∃ g, f = .fn2 g ∧
      evaluateJsonTraversalFn (.callable f) jt st v o = .ok (some (g v o))) ∧
    (∀ f : JsonTraversalFn R, f.length = 4 → ∃ g, f = .fn4 g ∧
      evaluateJsonTraversalFn (.callable f) jt st v o = .ok (some (g jt st v o))) ∧
    (∀ f : JsonTraversalFn R, f.length ≠ 1 → f.length ≠ 2 → f.length ≠ 4 →
      evaluateJsonTraversalFn (.callable f) jt st v o = .error .invalidTraversalFnArity) := by
  refine ⟨rfl, fun r => rfl, fun f h1 => ?_, fun f h2 => ?_, fun f h4 => ?_,
    fun f h1 h2 h4 => ?_⟩
  · cases f with
    | fn1 g => exact ⟨g, rfl, rfl⟩
    | fn2 g => simp [JsonTraversalFn.length] at h1
    | fn4 g => simp [JsonTraversalFn.length] at h1
    | fnOther n hn => exact absurd h1 hn.1
  · cases f with
    | fn1 g => simp [JsonTraversalFn.length] at h2
    | fn2 g => exact ⟨g, rfl, rfl⟩
    | fn4 g => simp [JsonTraversalFn.length] at h2
    | fnOther n hn => exact absurd h2 hn.2.1
  · cases f with
    | fn1 g => simp [JsonTraversalFn.length] at h4
    | fn2 g => simp [JsonTraversalFn.length] at h4
    | fn4 g => exact ⟨g, rfl, rfl⟩
    | fnOther n hn => exact absurd h4 hn.2.2
  · cases f with
    | fn1 g => exact absurd rfl h1
    | fn2 g => exact absurd rfl h2
    | fn4 g => exact absurd rfl h4
    | fnOther n hn => rfl

/-- Witness for C7: a callable of declared arity 3 raises the
invalid-arity error (at concrete engine token, state, value and
options). -/
theorem evaluateJsonTraversalFn_spec_witness :
    evaluateJsonTraversalFn
      (.callable (.fnOther 3 (by decide) : JsonTraversalFn Out))
      ⟨0⟩ ⟨none, VisitMap.init⟩ (.vNum 1) none = .error .invalidTraversalFnArity :=
  (evaluateJsonTraversalFn_spec ⟨0⟩ ⟨none, VisitMap.init⟩ (.vNum 1) none).2.2.2.2.2
    (.fnOther 3 (by decide)) (by decide) (by decide) (by decide)

/-- C8: for a big integer reaching the triviality check, disabled
big-integer coercion (`transformBigInt === false`) returns it as-is;
otherwise a value within the safe-integer range is coerced to a plain
number, and a value whose magnitude exceeds the safe-integer range
becomes its exact decimal string. -/
theorem serializeTrivialValue_bigint_spec (env : Env) (i : Int) :
    (env.jsonthis.options.transformBigInt = some false →
      serializeTrivialValue env (.vBigInt i) = (.oBigInt i, true)) ∧
    (env.jsonthis.options.transformBigInt ≠ some false →
      minSafeInteger ≤ i → i ≤ maxSafeInteger →
      serializeTrivialValue env (.vBigInt i) = (.oNum i, true)) ∧
    (env.jsonthis.options.transformBigInt ≠ some false →
      (maxSafeInteger < i ∨ i < minSafeInteger) →
      serializeTrivialValue env (.vBigInt i) = (.oStr (toString i), true)) := by
  refine ⟨fun h => ?_, fun h hlo hhi => ?_, fun h hout => ?_⟩
  · simp [serializeTrivialValue, h]
  · have hne : (env.jsonthis.options.transformBigInt == some false) = false := by
      cases hx : env.jsonthis.options.transformBigInt with
      | none => rfl
      | some b => cases b <;> simp_all
    simp [serializeTrivialValue, hne]
    omega
  · have hne : (env.jsonthis.options.transformBigInt == some false) = false := by
      cases hx : env.jsonthis.options.transformBigInt with
      | none => rfl
      | some b => cases b <;> simp_all
    have hc : (maxSafeInteger < i || i < minSafeInteger) = true := by
      rcases hout with h1 | h2
      · simp [h1]
      · simp [h2]
    simp [serializeTrivialValue, hne, hc]

/-- A minimal concrete environment shared by the witnesses: one engine
with default options, an empty registry, no schemas, identity case
functions and an empty heap. -/
def envBase : Env :=
  ⟨⟨0⟩, ⟨⟨false, none, none, none, none⟩, []⟩, fun _ => none,
    ⟨fun s => s, fun s => s, fun s => s⟩, []⟩

/-- Witness for C8: with coercion enabled (the default), `2^53` exceeds
the safe-integer range and serializes as its decimal string. -/
theorem serializeTrivialValue_bigint_spec_witness :
    serializeTrivialValue envBase (.vBigInt (2 ^ 53)) =
      (.oStr (toString (2 ^ 53 : Int)), true) :=
  (serializeTrivialValue_bigint_spec envBase (2 ^ 53)).2.2
    (by simp [envBase]) (Or.inl (by decide))

/-- Collapse the evaluator's `R | undefined` result into a serialized
value, as the engine's `return evaluateJsonTraversalFn(...)` does. -/
def evalOut (r : Except JsError (Option Out)) : Except JsError Out :=
  match r with
  | .ok (some x) => .ok x
  | .ok none => .ok .oUndefined
  | .error e => .error e

/-- JavaScript reference semantics of the optional `state` parameter: a
caller that passed a state object observes its mutations, a caller that
passed none observes nothing. -/
def mirrorState (stateIn : Option JsonTraversalState) (st : JsonTraversalState) :
    Option JsonTraversalState :=
  match stateIn with
  | some _ => some st
  | none => none

/-- The own enumerable properties of a value (`for propertyName in
target` with the `Object.hasOwn` filter): the fields of the heap object
for an object value, nothing otherwise. -/
def objFields (env : Env) : JsVal → List (String × JsVal)
  | .vObj a =>
    match heapGet env.heap a with
    | some node => node.fields
    | none => []
  | _ => []

/-- `visible === false` on the evaluator's result. -/
def isFalseVal : Option JsVal → Bool
  | some (.vBool false) => true
  | _ => false

/-- `if (!schema) schema = JsonSchema.get(target.constructor)`. -/
def resolveSchema (env : Env) (schemaIn : Option JsonSchema) (target : JsVal) :
    Option JsonSchema :=
  match schemaIn with
  | some sc => some sc
  | none => schemaGet env (constructorOf env.heap target)

/-- `if (!state.parent) state.visited.visit(target)`: the root of a
traversal is recorded as visited (the returned flag is discarded). -/
def rootMark (state0 : JsonTraversalState) (target : JsVal) : JsonTraversalState :=
  match state0.parent with
  | none => ⟨state0.parent, (state0.visited.visit target).2⟩
  | some _ => state0

/-- `schema?.definedFields.get(propertyName) || {}`. -/
def fieldOptionsFor (schema : Option JsonSchema) (propertyName : String) :
    JsonFieldOptions :=
  match schema.bind (fun sc => definedFieldsGet sc.definedFields propertyName) with
  | some fo => fo
  | none => JsonFieldOptions.empty

/-- `field.serializer || this.serializers.get(value?.constructor)`. -/
def effectiveSerializer (env : Env) (schema : Option JsonSchema)
    (propertyName : String) (value : JsVal) : Option (JsonTraversalFn Out) :=
  jsOr (fieldOptionsFor schema propertyName).serializer
    (serializersGet env.jsonthis.serializers (constructorOf env.heap value))

/-- The triviality shortcut of `Jsonthis.serialize`: when no explicit
serializer applies and the value is trivial, its trivial serialization
is returned before any depth or cycle bookkeeping. -/
def trivialShortcut (env : Env) (serializer : Option (JsonTraversalFn Out))
    (value : JsVal) : Option Out :=
  match serializer with
  | none =>
    match serializeTrivialValue env value with
    | (result, true) => some result
    | (_, false) => none
  | some _ => none

mutual

/-- `Jsonthis.toJson(target, options?, state?, schema?)`: the engine's
entry point.  Null handling, top-level array mapping, schema/state
defaulting, root marking, the type-level serializer overrides (schema
serializer, then global registry), the triviality check, and finally
structural traversal of the own enumerable fields.  The first `Nat`
argument is the recursion budget of this fuelled model; every recursive
call decreases it. -/
def toJson (env : Env) : Nat → JsVal → Option ToJsonOptions →
    Option JsonTraversalState → Option JsonSchema →
    Except JsError Out × Option JsonTraversalState
  | 0, _, _, stateIn, _ => (.error .outOfFuel, stateIn)
  | fuel + 1, target, options, stateIn, schemaIn =>
    if isNull target then
      (.ok (if env.jsonthis.options.keepNulls then .oNull else .oUndefined), stateIn)
    else
      match target with
      | .vArr elems =>
        match mapToJson env fuel elems options stateIn schemaIn with
        | (.ok l, stateOut) => (.ok (.oArr l), stateOut)
        | (.error e, stateOut) => (.error e, stateOut)
      | _ =>
        let state0 := match stateIn with
          | some st => st
          | none => ⟨none, VisitMap.init⟩
        match toJsonObj env fuel target options state0 schemaIn with
        | (r, stateOut) => (r, mirrorState stateIn stateOut)

/-- The non-array core of `Jsonthis.toJson`, operating on the definite
traversal state obtained after state defaulting: schema defaulting,
root marking, the two type-level serializer overrides, the triviality
check, and structural traversal of the own enumerable fields. -/
def toJsonObj (env : Env) : Nat → JsVal → Option ToJsonOptions →
    JsonTraversalState → Option JsonSchema →
    Except JsError Out × JsonTraversalState
  | 0, _, _, state0, _ => (.error .outOfFuel, state0)
  | fuel + 1, target, options, state0, schemaIn =>
    let schema := resolveSchema env schemaIn target
    let state1 := rootMark state0 target
    match schema.bind (fun sc => sc.serializer) with
    | some schemaSerializer =>
      (evalOut (evaluateJsonTraversalFn (.callable schemaSerializer) env.ref
        state1 target options), state1)
    | none =>
      match serializersGet env.jsonthis.serializers (constructorOf env.heap target) with
      | some customSerializer =>
        (evalOut (evaluateJsonTraversalFn (.callable customSerializer) env.ref
          state1 target options), state1)
      | none =>
        match serializeTrivialValue env target with
        | (value, true) => (.ok value, state1)
        | (_, false) =>
          let state2 : JsonTraversalState := ⟨some target, state1.visited⟩
          match serializeFields env fuel schema (objFields env target) options state2 with
          | (.ok fields, state3) => (.ok (.oObj fields), state3)
          | (.error e, state3) => (.error e, state3)

/-- `target.map(e => this.toJson(e, options, state, schema))` for an
array passed to the entry point: each element goes through `toJson`
with the same optional state object and schema, and the results are
collected without substitution. -/
def mapToJson (env : Env) : Nat → List JsVal → Option ToJsonOptions →
    Option JsonTraversalState → Option JsonSchema →
    Except JsError (List Out) × Option JsonTraversalState
  | 0, _, _, stateIn, _ => (.error .outOfFuel, stateIn)
  | _ + 1, [], _, stateIn, _ => (.ok [], stateIn)
  | fuel + 1, e :: rest, options, stateIn, schemaIn =>
    match toJson env fuel e options stateIn schemaIn with
    | (.ok o, stateOut) =>
      match mapToJson env fuel rest options stateOut schemaIn with
      | (.ok l, stateFin) => (.ok (o :: l), stateFin)
      | (.error err, stateFin) => (.error err, stateFin)
    | (.error err, stateOut) => (.error err, stateOut)

/-- The field loop of `Jsonthis.toJson`: for every own enumerable field,
resolve the field options, evaluate visibility (skipping the field
entirely when it is exactly `false`), compute the cased key, resolve
the effective serializer (the field serializer, else a registered
global serializer for the value's constructor), serialize the value,
and keep the key unless the serialized value is `undefined`. -/
def serializeFields (env : Env) : Nat → Option JsonSchema →
    List (String × JsVal) → Option ToJsonOptions → JsonTraversalState →
    Except JsError (List (String × Out)) × JsonTraversalState
  | 0, _, _, _, state => (.error .outOfFuel, state)
  | _ + 1, _, [], _, state => (.ok [], state)
  | fuel + 1, schema, (propertyName, value) :: rest, options, state =>
    let field := fieldOptionsFor schema propertyName
    match evaluateJsonTraversalFn field.visible env.ref state value options with
    | .error e => (.error e, state)
    | .ok visible =>
      if isFalseVal visible then
        serializeFields env fuel schema rest options state
      else
        let key := propertyNameToString env.caseFns env.jsonthis.options propertyName
        let serializer := effectiveSerializer env schema propertyName value
        match serialize env fuel value state serializer options with
        | (.ok serializedValue, state1) =>
          match serializeFields env fuel schema rest options state1 with
          | (.ok json, state2) =>
            (if serializedValue.isUndef then .ok json
             else .ok ((key, serializedValue) :: json), state2)
          | (.error e, state2) => (.error e, state2)
        | (.error e, state1) => (.error e, state1)

/-- `Jsonthis.serialize(value, state, serializer?, options?)`: the
per-value serialization procedure.  Null handling, per-element array
mapping with falsy-to-null substitution, the triviality shortcut when
no serializer applies, and otherwise the dived body wrapped in the
`dive()`/`arise()` try/finally discipline. -/
def serialize (env : Env) : Nat → JsVal → JsonTraversalState →
    Option (JsonTraversalFn Out) → Option ToJsonOptions →
    Except JsError Out × JsonTraversalState
  | 0, _, state, _, _ => (.error .outOfFuel, state)
  | fuel + 1, value, state, serializer, options =>
    if isNull value then
      (.ok (if env.jsonthis.options.keepNulls then .oNull else .oUndefined), state)
    else
      match value with
      | .vArr elems =>
        match serializeElems env fuel elems state serializer options with
        | (.ok l, state1) => (.ok (.oArr l), state1)
        | (.error e, state1) => (.error e, state1)
      | _ =>
        match trivialShortcut env serializer value with
        | some result => (.ok result, state)
        | none =>
          let stateDive : JsonTraversalState := ⟨state.parent, state.visited.dive⟩
          match serializeDived env fuel value stateDive serializer options with
          | (r, stateOut) => (r, ⟨stateOut.parent, stateOut.visited.arise⟩)

/-- The body of the `try` block of `Jsonthis.serialize`, entered after
`state.visited.dive()`; the caller applies `state.visited.arise()` to
the resulting state on every exit path (the `finally` clause).  Checks
the effective depth limit, then visits the value: a revisited identity
goes to the configured circular-reference serializer or raises
`CircularReferenceError`; otherwise the explicit serializer is
evaluated, or the engine re-enters `toJson` with the same state. -/
def serializeDived (env : Env) : Nat → JsVal → JsonTraversalState →
    Option (JsonTraversalFn Out) → Option ToJsonOptions →
    Except JsError Out × JsonTraversalState
  | 0, _, state, _, _ => (.error .outOfFuel, state)
  | fuel + 1, value, state, serializer, options =>
    let maxDepth := effectiveMaxDepth options env.jsonthis.options
    if depthExceeded state.visited.depth maxDepth then
      (.ok .oUndefined, state)
    else
      match state.visited.visit value with
      | (true, visited1) =>
        let state1 : JsonTraversalState := ⟨state.parent, visited1⟩
        match env.jsonthis.options.circularReferenceSerializer with
        | some circularSerializer =>
          (evalOut (evaluateJsonTraversalFn (.callable circularSerializer) env.ref
            state1 value options), state1)
        | none => (.error (.circularReference value state1), state1)
      | (false, visited1) =>
        let state1 : JsonTraversalState := ⟨state.parent, visited1⟩
        match serializer with
        | some ser =>
          (evalOut (evaluateJsonTraversalFn (.callable ser) env.ref
            state1 value options), state1)
        | none =>
          match toJson env fuel value options (some state1) none with
          | (r, some state2) => (r, state2)
          | (r, none) => (r, state1)

/-- `value.map(e => this.serialize(e, state, serializer, options) || null)`:
per-element serialization of an array value, substituting `null` for
every falsy element result. -/
def serializeElems (env : Env) : Nat → List JsVal → JsonTraversalState →
    Option (JsonTraversalFn Out) → Option ToJsonOptions →
    Except JsError (List Out) × JsonTraversalState
  | 0, _, state, _, _ => (.error .outOfFuel, state)
  | _ + 1, [], state, _, _ => (.ok [], state)
  | fuel + 1, e :: rest, state, serializer, options =>
    match serialize env fuel e state serializer options with
    | (.ok o, state1) =>
      match serializeElems env fuel rest state1 serializer options with
      | (.ok l, state2) => (.ok ((if jsFalsy o then .oNull else o) :: l), state2)
      | (.error err, state2) => (.error err, state2)
    | (.error err, state1) => (.error err, state1)

end

/-- What `arise` observes of a visitation tracker: the stack of
enclosing levels and the depth counter; the current (head) level is
irrelevant to it. -/
def tailEq (a b : VisitMap) : Prop :=
  a.depths.tail = b.depths.tail ∧ a.currentDepth = b.currentDepth

theorem tailEq_refl (a : VisitMap) : tailEq a a := ⟨rfl, rfl⟩

theorem tailEq_of_eq {a b : VisitMap} (h : a = b) : tailEq a b := by
  subst h; exact tailEq_refl a

theorem tailEq_trans {a b c : VisitMap} (h1 : tailEq a b) (h2 : tailEq b c) :
    tailEq a c := ⟨h1.1.trans h2.1, h1.2.trans h2.2⟩

/-- `add` only touches the current (head) level. -/
theorem add_tailEq (m : VisitMap) (v : JsVal) : tailEq (m.add v) m := by
  obtain ⟨depths, d⟩ := m
  cases depths with
  | nil => exact tailEq_refl _
  | cons level rest => exact ⟨rfl, rfl⟩

/-- `visit` only touches the current (head) level. -/
theorem visit_tailEq (m : VisitMap) (v : JsVal) : tailEq (m.visit v).2 m := by
  unfold VisitMap.visit
  split
  · split
    · exact tailEq_refl m
    · exact add_tailEq m v
  · exact tailEq_refl m

/-- Popping a tracker that agrees with `m.dive` below its head level
restores `m` exactly. -/
theorem arise_of_tailEq_dive {m r : VisitMap} (h : tailEq r m.dive) :
    r.arise = m := by
  obtain ⟨depths, d⟩ := m
  obtain ⟨rdepths, rc⟩ := r
  obtain ⟨h1, h2⟩ := h
  simp [VisitMap.dive] at h1 h2
  simp [VisitMap.arise, h1, h2]

/-- `rootMark` only touches the current (head) level, and is the
identity when a parent is already recorded. -/
theorem rootMark_spec (st0 : JsonTraversalState) (v : JsVal) :
    tailEq (rootMark st0 v).visited st0.visited ∧
    (st0.parent ≠ none → rootMark st0 v = st0) := by
  obtain ⟨par, vm⟩ := st0
  cases par with
  | none => exact ⟨visit_tailEq _ _, fun hp => absurd rfl hp⟩
  | some p => exact ⟨tailEq_refl _, fun _ => rfl⟩

/-- State discipline of the engine, proved by one induction on the fuel:
`serialize`, the field loop and the element loop restore the visitation
tracker exactly on every exit path; `toJson`/`toJsonObj`/`mapToJson`
leave every enclosing level and the depth counter unchanged, restore
the tracker exactly when a parent is already recorded, and never clear
the parent once it is set; and the optional state is mirrored. -/
theorem stateAux (env : Env) : ∀ fuel : Nat,
    (∀ v opts stIn schemaIn,
      (stIn = none → (toJson env fuel v opts stIn schemaIn).2 = none) ∧
      (∀ st, stIn = some st → ∃ st',
        (toJson env fuel v opts stIn schemaIn).2 = some st' ∧
        tailEq st'.visited st.visited ∧
        (st.parent ≠ none → st'.visited = st.visited ∧ st'.parent ≠ none))) ∧
    (∀ v opts st0 schemaIn,
      tailEq (toJsonObj env fuel v opts st0 schemaIn).2.visited st0.visited ∧
      (st0.parent ≠ none →
        (toJsonObj env fuel v opts st0 schemaIn).2.visited = st0.visited ∧
        (toJsonObj env fuel v opts st0 schemaIn).2.parent ≠ none)) ∧
    (∀ elems opts stIn schemaIn,
      (stIn = none → (mapToJson env fuel elems opts stIn schemaIn).2 = none) ∧
      (∀ st, stIn = some st → ∃ st',
        (mapToJson env fuel elems opts stIn schemaIn).2 = some st' ∧
        tailEq st'.visited st.visited ∧
        (st.parent ≠ none → st'.visited = st.visited ∧ st'.parent ≠ none))) ∧
    (∀ schema fields opts st,
      (serializeFields env fuel schema fields opts st).2.visited = st.visited ∧
      (st.parent ≠ none → (serializeFields env fuel schema fields opts st).2.parent ≠ none)) ∧
    (∀ v st ser opts,
      (serialize env fuel v st ser opts).2.visited = st.visited ∧
      (st.parent ≠ none → (serialize env fuel v st ser opts).2.parent ≠ none)) ∧
    (∀ v st ser opts,
      tailEq (serializeDived env fuel v st ser opts).2.visited st.visited ∧
      (st.parent ≠ none → (serializeDived env fuel v st ser opts).2.parent ≠ none)) ∧
    (∀ elems st ser opts,
      (serializeElems env fuel elems st ser opts).2.visited = st.visited ∧
      (st.parent ≠ none → (serializeElems env fuel elems st ser opts).2.parent ≠ none)) := by
  intro fuel
  induction fuel with
  | zero =>
    refine ⟨?_, ?_, ?_, ?_, ?_, ?_, ?_⟩
    · intro v opts stIn schemaIn
      exact ⟨fun h => by simp [toJson, h],
        fun st h => ⟨st, by simp [toJson, h], tailEq_refl _, fun hp => ⟨rfl, hp⟩⟩⟩
    · intro v opts st0 schemaIn
      exact ⟨tailEq_refl _, fun hp => ⟨rfl, hp⟩⟩
    · intro elems opts stIn schemaIn
      exact ⟨fun h => by simp [mapToJson, h],
        fun st h => ⟨st, by simp [mapToJson, h], tailEq_refl _, fun hp => ⟨rfl, hp⟩⟩⟩
    · intro schema fields opts st
      exact ⟨rfl, fun hp => hp⟩
    · intro v st ser opts
      exact ⟨rfl, fun hp => hp⟩
    · intro v st ser opts
      exact ⟨tailEq_refl _, fun hp => hp⟩
    · intro elems st ser opts
      exact ⟨rfl, fun hp => hp⟩
  | succ fuel ih =>
    obtain ⟨ihT, ihO, ihM, ihF, ihS, ihD, ihE⟩ := ih
    refine ⟨?_, ?_, ?_, ?_, ?_, ?_, ?_⟩
    · -- toJson
      intro v opts stIn schemaIn
      constructor
      · rintro rfl
        simp only [toJson]
        split
        · rfl
        · split
          · next elems _ =>
            have hm := (ihM elems opts none schemaIn).1 rfl
            rcases hmm : mapToJson env fuel elems opts none schemaIn with ⟨r, so⟩
            rw [hmm] at hm
            simp only at hm
            subst hm
            cases r with
            | ok l => simp
            | error e => simp
          · rcases ho : toJsonObj env fuel v opts ⟨none, VisitMap.init⟩ schemaIn with ⟨r, so⟩
            simp [ho, mirrorState]
      · intro st hst
        subst hst
        simp only [toJson]
        split
        · exact ⟨st, rfl, tailEq_refl _, fun hp => ⟨rfl, hp⟩⟩
        · split
          · next elems _ =>
            obtain ⟨st', hst', htail, hcond⟩ := (ihM elems opts (some st) schemaIn).2 st rfl
            rcases hmm : mapToJson env fuel elems opts (some st) schemaIn with ⟨r, so⟩
            rw [hmm] at hst'
            simp only at hst'
            subst hst'
            cases r with
            | ok l => exact ⟨st', by simp, htail, hcond⟩
            | error e => exact ⟨st', by simp, htail, hcond⟩
          · obtain ⟨htail, hcond⟩ := ihO v opts st schemaIn
            rcases ho : toJsonObj env fuel v opts st schemaIn with ⟨r, so⟩
            rw [ho] at htail hcond
            simp only at htail hcond
            exact ⟨so, by simp [mirrorState], htail, hcond⟩
    · -- toJsonObj
      intro v opts st0 schemaIn
      simp only [toJsonObj]
      obtain ⟨h1tail, h1eq⟩ := rootMark_spec st0 v
      split
      · exact ⟨h1tail, fun hp => ⟨by rw [h1eq hp], by rw [h1eq hp]; exact hp⟩⟩
      · split
        · exact ⟨h1tail, fun hp => ⟨by rw [h1eq hp], by rw [h1eq hp]; exact hp⟩⟩
        · split
          · exact ⟨h1tail, fun hp => ⟨by rw [h1eq hp], by rw [h1eq hp]; exact hp⟩⟩
          · obtain ⟨hfv, hfp⟩ := ihF (resolveSchema env schemaIn v) (objFields env v) opts
              ⟨some v, (rootMark st0 v).visited⟩
            rcases hf : serializeFields env fuel (resolveSchema env schemaIn v)
              (objFields env v) opts ⟨some v, (rootMark st0 v).visited⟩ with ⟨r, st3⟩
            rw [hf] at hfv hfp
            simp only at hfv hfp
            have hfp' : st3.parent ≠ none := hfp (fun hc => Option.noConfusion hc)
            cases r with
            | ok fields =>
              exact ⟨by simpa [hfv] using h1tail,
                fun hp => ⟨by simp only [hfv]; rw [h1eq hp], hfp'⟩⟩
            | error e =>
              exact ⟨by simpa [hfv] using h1tail,
                fun hp => ⟨by simp only [hfv]; rw [h1eq hp], hfp'⟩⟩
    · -- mapToJson
      intro elems opts stIn schemaIn
      cases elems with
      | nil =>
        constructor
        · rintro rfl; simp [mapToJson]
        · intro st hst; subst hst
          exact ⟨st, by simp [mapToJson], tailEq_refl _, fun hp => ⟨rfl, hp⟩⟩
      | cons e rest =>
        constructor
        · rintro rfl
          simp only [mapToJson]
          have ht := (ihT e opts none schemaIn).1 rfl
          rcases hj : toJson env fuel e opts none schemaIn with ⟨r, so⟩
          rw [hj] at ht
          simp only at ht
          subst ht
          cases r with
          | ok o =>
            have hm := (ihM rest opts none schemaIn).1 rfl
            rcases hmm : mapToJson env fuel rest opts none schemaIn with ⟨r2, so2⟩
            rw [hmm] at hm
            simp only at hm
            subst hm
            cases r2 with
            | ok l => simp [hmm]
            | error err => simp [hmm]
          | error err => simp [hj]
        · intro st hst
          subst hst
          simp only [mapToJson]
          obtain ⟨st1, hst1, htail1, hcond1⟩ := (ihT e opts (some st) schemaIn).2 st rfl
          rcases hj : toJson env fuel e opts (some st) schemaIn with ⟨r, so⟩
          rw [hj] at hst1
          simp only at hst1
          subst hst1
          cases r with
          | ok o =>
            obtain ⟨st2, hst2, htail2, hcond2⟩ := (ihM rest opts (some st1) schemaIn).2 st1 rfl
            rcases hmm : mapToJson env fuel rest opts (some st1) schemaIn with ⟨r2, so2⟩
            rw [hmm] at hst2
            simp only at hst2
            subst hst2
            have hcond : st.parent ≠ none → st2.visited = st.visited ∧ st2.parent ≠ none := by
              intro hp
              obtain ⟨he1, hp1⟩ := hcond1 hp
              obtain ⟨he2, hp2⟩ := hcond2 hp1
              exact ⟨he2.trans he1, hp2⟩
            cases r2 with
            | ok l => exact ⟨st2, by simp [hmm], tailEq_trans htail2 htail1, hcond⟩
            | error err => exact ⟨st2, by simp [hmm], tailEq_trans htail2 htail1, hcond⟩
          | error err => exact ⟨st1, by simp [hj], htail1, hcond1⟩
    · -- serializeFields
      intro schema fields opts st
      cases fields with
      | nil => exact ⟨by simp [serializeFields], fun hp => by simpa [serializeFields] using hp⟩
      | cons p rest =>
        obtain ⟨propertyName, value⟩ := p
        simp only [serializeFields]
        split
        · exact ⟨rfl, fun hp => hp⟩
        · split
          · exact ihF schema rest opts st
          · obtain ⟨hsv, hsp⟩ := ihS value st
              (effectiveSerializer env schema propertyName value) opts
            rcases hs : serialize env fuel value st
              (effectiveSerializer env schema propertyName value) opts with ⟨r, st1⟩
            rw [hs] at hsv hsp
            simp only at hsv hsp
            cases r with
            | ok sv =>
              obtain ⟨hfv, hfp⟩ := ihF schema rest opts st1
              rcases hf : serializeFields env fuel schema rest opts st1 with ⟨r2, st2⟩
              rw [hf] at hfv hfp
              simp only at hfv hfp
              cases r2 with
              | ok json =>
                exact ⟨by simp [hs, hf, hfv, hsv], fun hp => by simp [hs, hf]; exact hfp (hsp hp)⟩
              | error e2 =>
                exact ⟨by simp [hs, hf, hfv, hsv], fun hp => by simp [hs, hf]; exact hfp (hsp hp)⟩
            | error e1 => exact ⟨by simp [hs, hsv], fun hp => by simp [hs]; exact hsp hp⟩
    · -- serialize
      intro v st ser opts
      simp only [serialize]
      split
      · exact ⟨rfl, fun hp => hp⟩
      · split
        · next elems _ =>
          obtain ⟨hev, hep⟩ := ihE elems st ser opts
          rcases he : serializeElems env fuel elems st ser opts with ⟨r, st1⟩
          rw [he] at hev hep
          simp only at hev hep
          cases r with
          | ok l => exact ⟨hev, hep⟩
          | error e => exact ⟨hev, hep⟩
        · split
          · exact ⟨rfl, fun hp => hp⟩
          · obtain ⟨hdt, hdp⟩ := ihD v ⟨st.parent, st.visited.dive⟩ ser opts
            rcases hd : serializeDived env fuel v ⟨st.parent, st.visited.dive⟩ ser opts with ⟨r, stOut⟩
            rw [hd] at hdt hdp
            simp only at hdt hdp
            exact ⟨arise_of_tailEq_dive hdt, fun hp => hdp hp⟩
    · -- serializeDived
      intro v st ser opts
      simp only [serializeDived]
      split
      · exact ⟨tailEq_refl _, fun hp => hp⟩
      · split
        · next visited1 hvisit =>
          have hv1 : tailEq visited1 st.visited := by
            have hq := visit_tailEq st.visited v
            rw [hvisit] at hq
            exact hq
          split
          · exact ⟨hv1, fun hp => hp⟩
          · exact ⟨hv1, fun hp => hp⟩
        · next visited1 hvisit =>
          have hv1 : tailEq visited1 st.visited := by
            have hq := visit_tailEq st.visited v
            rw [hvisit] at hq
            exact hq
          split
          · exact ⟨hv1, fun hp => hp⟩
          · obtain ⟨st2, hst2, htail2, hcond2⟩ :=
              (ihT v opts (some ⟨st.parent, visited1⟩) none).2 ⟨st.parent, visited1⟩ rfl
            rcases hj : toJson env fuel v opts (some ⟨st.parent, visited1⟩) none with ⟨r, so⟩
            rw [hj] at hst2
            simp only at hst2
            subst hst2
            exact ⟨tailEq_trans htail2 hv1, fun hp => (hcond2 hp).2⟩
    · -- serializeElems
      intro elems st ser opts
      cases elems with
      | nil => exact ⟨by simp [serializeElems], fun hp => by simpa [serializeElems] using hp⟩
      | cons e rest =>
        simp only [serializeElems]
        obtain ⟨hsv, hsp⟩ := ihS e st ser opts
        rcases hs : serialize env fuel e st ser opts with ⟨r, st1⟩
        rw [hs] at hsv hsp
        simp only at hsv hsp
        cases r with
        | ok o =>
          obtain ⟨hev, hep⟩ := ihE rest st1 ser opts
          rcases he : serializeElems env fuel rest st1 ser opts with ⟨r2, st2⟩
          rw [he] at hev hep
          simp only at hev hep
          cases r2 with
          | ok l => exact ⟨by simp [hs, he, hev, hsv], fun hp => by simp [hs, he]; exact hep (hsp hp)⟩
          | error err => exact ⟨by simp [hs, he, hev, hsv], fun hp => by simp [hs, he]; exact hep (hsp hp)⟩
        | error err => exact ⟨by simp [hs, hsv], fun hp => by simp [hs]; exact hsp hp⟩

/-- C4: every invocation of the per-value serialization procedure
restores the visitation tracker to its pre-call value on every exit
path — whether it returns a serialized value, returns absent because
the depth limit is exceeded, or propagates a thrown error — so each
`dive()` is matched by exactly one `arise()`, the depth is restored,
and no depth level leaks across sibling subtrees. -/
theorem serialize_restores_tracker (env : Env) (fuel : Nat) (v : JsVal)
    (st : JsonTraversalState) (ser : Option (JsonTraversalFn Out))
    (opts : Option ToJsonOptions) :
    (serialize env fuel v st ser opts).2.visited = st.visited ∧
    (serialize env fuel v st ser opts).2.visited.depth = st.visited.depth := by
  have h := ((stateAux env fuel).2.2.2.2.1 v st ser opts).1
  exact ⟨h, by rw [h]⟩

/-- Undoing a `dive` restores the tracker exactly. -/
theorem arise_dive (m : VisitMap) : m.dive.arise = m := by
  obtain ⟨depths, d⟩ := m
  simp [VisitMap.dive, VisitMap.arise]

/-- `dive` pushes only an empty level, so membership is unchanged. -/
theorem has_dive (m : VisitMap) (v : JsVal) : m.dive.has v = m.has v := by
  simp [VisitMap.has, VisitMap.dive]

/-- C1: when the per-value serialization procedure re-encounters an
object identity already recorded at some live depth level of the
visitation tracker (and the depth limit does not prune the value
first), then with no `circularReferenceSerializer` configured the call
throws `CircularReferenceError` carrying the offending value and the
traversal state at the point of detection, while with a configured
`circularReferenceSerializer` the evaluator's result becomes the
serialized value and no error is raised. -/
theorem serialize_circular_spec (env : Env) (fuel : Nat) (a : Nat)
    (st : JsonTraversalState) (ser : Option (JsonTraversalFn Out))
    (opts : Option ToJsonOptions)
    (hseen : st.visited.has (.vObj a) = true)
    (hdepth : depthExceeded (st.visited.dive).depth
      (effectiveMaxDepth opts env.jsonthis.options) = false)
    (htriv : trivialShortcut env ser (.vObj a) = none) :
    (env.jsonthis.options.circularReferenceSerializer = none →
      serialize env (fuel + 2) (.vObj a) st ser opts =
        (.error (.circularReference (.vObj a) ⟨st.parent, st.visited.dive⟩), st)) ∧
    (∀ cser r, env.jsonthis.options.circularReferenceSerializer = some cser →
      evaluateJsonTraversalFn (.callable cser) env.ref
        ⟨st.parent, st.visited.dive⟩ (.vObj a) opts = .ok r →
      serialize env (fuel + 2) (.vObj a) st ser opts = (.ok (r.getD .oUndefined), st)) := by
  have hvisit : (st.visited.dive).visit (.vObj a) = (true, st.visited.dive) := by
    simp [VisitMap.visit, typeofObject, has_dive, hseen]
  constructor
  · intro hnone
    have hd : serializeDived env (fuel + 1) (.vObj a)
        ⟨st.parent, st.visited.dive⟩ ser opts =
        (.error (.circularReference (.vObj a) ⟨st.parent, st.visited.dive⟩),
          ⟨st.parent, st.visited.dive⟩) := by
      simp only [serializeDived]
      simp [hdepth, hvisit, hnone]
    simp only [serialize]
    simp [isNull, htriv, hd, arise_dive]
  · intro cser r hsome heval
    have hd : serializeDived env (fuel + 1) (.vObj a)
        ⟨st.parent, st.visited.dive⟩ ser opts =
        (.ok (r.getD .oUndefined), ⟨st.parent, st.visited.dive⟩) := by
      simp only [serializeDived]
      simp only [hdepth]
      simp only [hvisit, hsome, heval]
      cases r with
      | none => simp [evalOut]
      | some x => simp [evalOut]
    simp only [serialize]
    simp [isNull, htriv, hd, arise_dive]

/-- Witness for C1: with no handler configured, revisiting the identity
`vObj 0`, which is recorded at the live root level, raises
`CircularReferenceError` with the offending value and the state at
detection. -/
theorem serialize_circular_spec_witness :
    serialize envBase 2 (.vObj 0) ⟨none, ⟨[[JsVal.vObj 0]], 0⟩⟩ none none =
      (.error (.circularReference (.vObj 0)
        ⟨none, ⟨[[], [JsVal.vObj 0]], 1⟩⟩), ⟨none, ⟨[[JsVal.vObj 0]], 0⟩⟩) :=
  (serialize_circular_spec envBase 0 0 ⟨none, ⟨[[JsVal.vObj 0]], 0⟩⟩ none none
    rfl rfl rfl).1 rfl

/-- `Map.set` followed by `Map.get` on the same key yields the new
entry. -/
theorem serializersGet_set (l : List (TypeTag × JsonTraversalFn Out))
    (t : TypeTag) (f : JsonTraversalFn Out) :
    serializersGet (serializersSet l t f) (some t) = some f := by
  induction l with
  | nil => simp [serializersSet, serializersGet]
  | cons p rest ih =>
    obtain ⟨t', f'⟩ := p
    by_cases h : t' = t
    · subst h
      simp [serializersSet, serializersGet]
    · have hbeq : (t' == t) = false := by simp [h]
      simp only [serializersSet, if_neg h]
      simp only [serializersGet, List.find?] at ih ⊢
      simp [hbeq, ih]

/-- C6: registering a global serializer for a type that already has one
without `allowOverride` throws an error naming the type and leaves the
existing registration in effect (the registry is returned unchanged in
the error, so lookup still yields the old serializer); registering with
`allowOverride` replaces the entry, and the replacement serializer is
the one a subsequent `toJson` call dispatches to for values of that
type (when no schema-level serializer shadows it). -/
theorem registerGlobalSerializer_spec (j : Jsonthis) (target : TypeTag)
    (s2 : JsonTraversalFn Out) :
    ((serializersGet j.serializers (some target)).isSome = true →
      registerGlobalSerializer j target s2 false =
        .error ("Serializer already registered for \"" ++ target.typeName ++ "\"")) ∧
    (registerGlobalSerializer j target s2 true =
      .ok ⟨j.options, serializersSet j.serializers target s2⟩ ∧
      serializersGet (serializersSet j.serializers target s2) (some target) = some s2) ∧
    (∀ (env : Env) (fuel : Nat) (a : Nat) (node : ObjNode)
        (opts : Option ToJsonOptions),
      env.jsonthis.serializers = serializersSet j.serializers target s2 →
      heapGet env.heap a = some node → node.ctor = target →
      (env.schemaStore target).bind (fun sc => sc.serializer) = none →
      toJson env (fuel + 2) (.vObj a) opts none none =
        (evalOut (evaluateJsonTraversalFn (.callable s2) env.ref
          (rootMark ⟨none, VisitMap.init⟩ (.vObj a)) (.vObj a) opts), none)) := by
  refine ⟨fun h => ?_, ⟨?_, serializersGet_set j.serializers target s2⟩, ?_⟩
  · simp [registerGlobalSerializer, h]
  · simp [registerGlobalSerializer]
  · intro env fuel a node opts hreg hheap hctor hsch
    have hcon : constructorOf env.heap (.vObj a) = some target := by
      simp [constructorOf, hheap, hctor]
    have hschema : resolveSchema env none (.vObj a) = env.schemaStore target := by
      simp [resolveSchema, schemaGet, hcon]
    have hget : serializersGet env.jsonthis.serializers
        (constructorOf env.heap (.vObj a)) = some s2 := by
      rw [hcon, hreg]
      exact serializersGet_set j.serializers target s2
    have hobj : toJsonObj env (fuel + 1) (.vObj a) opts ⟨none, VisitMap.init⟩ none =
        (evalOut (evaluateJsonTraversalFn (.callable s2) env.ref
          (rootMark ⟨none, VisitMap.init⟩ (.vObj a)) (.vObj a) opts),
          rootMark ⟨none, VisitMap.init⟩ (.vObj a)) := by
      simp only [toJsonObj]
      rw [hschema]
      rw [hsch]
      rw [hget]
    simp only [toJson]
    simp [isNull, hobj, mirrorState]

/-- A type tag, an original and a replacement serializer, and an engine
holding the replacement, used by the registry witnesses. -/
def tagU : TypeTag := .user 1 "User"

def serOld : JsonTraversalFn Out := .fn1 (fun _ => .oStr "old")

def serNew : JsonTraversalFn Out := .fn1 (fun _ => .oStr "new")

def jW : Jsonthis := ⟨⟨false, none, none, none, none⟩, [(tagU, serOld)]⟩

def envW : Env :=
  ⟨⟨0⟩, ⟨⟨false, none, none, none, none⟩, serializersSet jW.serializers tagU serNew⟩,
    fun _ => none, ⟨fun s => s, fun s => s, fun s => s⟩,
    [(5, ⟨tagU, false, [("id", .vNum 1)]⟩)]⟩

/-- Witness for C6: re-registering for `User` without override fails
naming the type; after an override registration, lookup yields the
replacement and a `toJson` call on a `User` instance dispatches to it,
producing its output. -/
theorem registerGlobalSerializer_spec_witness :
    registerGlobalSerializer jW tagU serNew false =
      .error ("Serializer already registered for \"" ++ tagU.typeName ++ "\"") ∧
    serializersGet (serializersSet jW.serializers tagU serNew) (some tagU) = some serNew ∧
    toJson envW 2 (.vObj 5) none none none =
      (evalOut (evaluateJsonTraversalFn (.callable serNew) envW.ref
        (rootMark ⟨none, VisitMap.init⟩ (.vObj 5)) (.vObj 5) none), none) :=
  ⟨(registerGlobalSerializer_spec jW tagU serNew).1 rfl,
    (registerGlobalSerializer_spec jW tagU serNew).2.1.2,
    (registerGlobalSerializer_spec jW tagU serNew).2.2 envW 0 5
      ⟨tagU, false, [("id", .vNum 1)]⟩ none rfl rfl rfl rfl⟩

/-- C10: inside a traversed object, an array value is serialized
element by element and every element whose serialized result is falsy
(absent/undefined, null, false, 0, 0n, the empty string) appears as
`null` in the output array, while a truthy result appears unchanged at
its position (never omitted); an array passed directly as the top-level
target of `toJson` is instead mapped through the entry point and each
element's result is kept without any substitution. -/
theorem serialize_array_falsy_spec :
    (∀ (env : Env) (fuel : Nat) (e : JsVal) (rest : List JsVal)
        (st st1 st2 : JsonTraversalState) (ser : Option (JsonTraversalFn Out))
        (opts : Option ToJsonOptions) (sv : Out) (l : List Out),
      serialize env fuel e st ser opts = (.ok sv, st1) →
      serializeElems env fuel rest st1 ser opts = (.ok l, st2) →
      (jsFalsy sv = true →
        serializeElems env (fuel + 1) (e :: rest) st ser opts = (.ok (.oNull :: l), st2)) ∧
      (jsFalsy sv = false →
        serializeElems env (fuel + 1) (e :: rest) st ser opts = (.ok (sv :: l), st2))) ∧
    (∀ (env : Env) (fuel : Nat) (e : JsVal) (rest : List JsVal)
        (opts : Option ToJsonOptions) (schemaIn : Option JsonSchema)
        (o1 : Out) (l : List Out),
      toJson env fuel e opts none schemaIn = (.ok o1, none) →
      mapToJson env fuel rest opts none schemaIn = (.ok l, none) →
      toJson env (fuel + 2) (.vArr (e :: rest)) opts none schemaIn =
        (.ok (.oArr (o1 :: l)), none)) := by
  constructor
  · intro env fuel e rest st st1 st2 ser opts sv l hs he
    constructor
    · intro hf
      simp only [serializeElems]
      simp [hs, he, hf]
    · intro hf
      simp only [serializeElems]
      simp [hs, he, hf]
  · intro env fuel e rest opts schemaIn o1 l ht hm
    have hmm : mapToJson env (fuel + 1) (e :: rest) opts none schemaIn =
        (.ok (o1 :: l), none) := by
      simp only [mapToJson]
      simp [ht, hm]
    simp only [toJson]
    simp [isNull, hmm]

/-- Witness for C10: the element `false` is falsy and becomes `null`
inside an object-field array, while at the top level of `toJson` it is
kept as `false`. -/
theorem serialize_array_falsy_spec_witness :
    serializeElems envBase 6 [.vBool false, .vNum 5] ⟨none, VisitMap.init⟩ none none =
      (.ok [.oNull, .oNum 5], ⟨none, VisitMap.init⟩) ∧
    toJson envBase 7 (.vArr [.vBool false, .vNum 5]) none none none =
      (.ok (.oArr [.oBool false, .oNum 5]), none) :=
  ⟨(serialize_array_falsy_spec.1 envBase 5 (.vBool false) [.vNum 5]
      ⟨none, VisitMap.init⟩ ⟨none, VisitMap.init⟩ ⟨none, VisitMap.init⟩
      none none (.oBool false) [.oNum 5] rfl rfl).1 rfl,
    serialize_array_falsy_spec.2 envBase 5 (.vBool false) [.vNum 5]
      none none (.oBool false) [.oNum 5] rfl rfl⟩

/-- The effective-depth rule as the claim words it: the call-option
`maxDepth` if it is set, else the constructor-level `maxDepth` if it is
set, else unlimited. -/
def specEffectiveMaxDepth (options : Option ToJsonOptions) (j : JsonthisOptions) :
    Option Int :=
  match options.bind (fun o => o.maxDepth) with
  | some n => some n
  | none => j.maxDepth

/-- The 4-node linked chain `n1 → n2 → n3 → n4` of the depth-limit
examples, with schema-less `User`-like objects. -/
def chainHeap : Heap :=
  [(1, ⟨tagU, false, [("id", .vNum 1), ("friend", .vObj 2)]⟩),
   (2, ⟨tagU, false, [("id", .vNum 2), ("friend", .vObj 3)]⟩),
   (3, ⟨tagU, false, [("id", .vNum 3), ("friend", .vObj 4)]⟩),
   (4, ⟨tagU, false, [("id", .vNum 4)]⟩)]

def chainEnv : Env :=
  ⟨⟨0⟩, ⟨⟨false, none, none, none, none⟩, []⟩, fun _ => none,
    ⟨fun s => s, fun s => s, fun s => s⟩, chainHeap⟩

/-- Counterexample to C5 as stated: a call-option `maxDepth` of `0` is
set, so by the claim the effective limit is `0` and every value whose
depth after descending exceeds `0` — in particular the object held by
the `friend` field, serialized at depth `1` — must become absent and
its holding field omitted; but `0` is falsy in JavaScript, the code's
`options?.maxDepth || this.options.maxDepth || Infinity` falls through
to unlimited, and the `friend` field is serialized in full. -/
theorem c5_counterexample :
    specEffectiveMaxDepth (some ⟨none, some 0⟩) chainEnv.jsonthis.options = some 0 ∧
    effectiveMaxDepth (some ⟨none, some 0⟩) chainEnv.jsonthis.options = none ∧
    depthExceeded (VisitMap.init.dive).depth (some 0) = true ∧
    (toJson chainEnv 20 (.vObj 3) (some ⟨none, some 0⟩) none none).1 =
      .ok (.oObj [("id", .oNum 3), ("friend", .oObj [("id", .oNum 4)])]) :=
  ⟨rfl, rfl, by decide, rfl⟩

/-- C5 (amended): the effective maximum depth is the call-option
`maxDepth` if it is set and nonzero, else the constructor-level
`maxDepth` if it is set and nonzero, else unlimited (`0` is falsy in
JavaScript and is treated as unset); whenever the tracker's depth after
descending exceeds this limit, the value serializes to absent and its
holding field is omitted from the parent object rather than replaced by
a placeholder — so the 4-node chain with `maxDepth = 2` yields the
third node's object with its own link field omitted. -/
theorem effectiveMaxDepth_spec :
    (∀ (c : Option JsVal) (n : Int) (j : JsonthisOptions), n ≠ 0 →
      effectiveMaxDepth (some ⟨c, some n⟩) j = some n) ∧
    (∀ (opts : Option ToJsonOptions) (j : JsonthisOptions) (m : Int),
      opts.bind (fun o => o.maxDepth) = none → j.maxDepth = some m → m ≠ 0 →
      effectiveMaxDepth opts j = some m) ∧
    (∀ (opts : Option ToJsonOptions) (j : JsonthisOptions),
      opts.bind (fun o => o.maxDepth) = none → j.maxDepth = none →
      effectiveMaxDepth opts j = none) ∧
    (∀ (env : Env) (fuel : Nat) (value : JsVal) (st : JsonTraversalState)
        (ser : Option (JsonTraversalFn Out)) (opts : Option ToJsonOptions),
      isNull value = false → (∀ elems, value ≠ .vArr elems) →
      trivialShortcut env ser value = none →
      depthExceeded (st.visited.dive).depth
        (effectiveMaxDepth opts env.jsonthis.options) = true →
      serialize env (fuel + 2) value st ser opts = (.ok .oUndefined, st)) ∧
    (∀ (env : Env) (fuel : Nat) (schema : Option JsonSchema)
        (propertyName : String) (value : JsVal) (rest : List (String × JsVal))
        (opts : Option ToJsonOptions) (st st1 st2 : JsonTraversalState)
        (json : List (String × Out)) (r : Option JsVal),
      evaluateJsonTraversalFn (fieldOptionsFor schema propertyName).visible
        env.ref st value opts = .ok r →
      isFalseVal r = false →
      serialize env fuel value st
        (effectiveSerializer env schema propertyName value) opts = (.ok .oUndefined, st1) →
      serializeFields env fuel schema rest opts st1 = (.ok json, st2) →
      serializeFields env (fuel + 1) schema ((propertyName, value) :: rest) opts st =
        (.ok json, st2)) ∧
    ((toJson chainEnv 20 (.vObj 1) (some ⟨none, some 2⟩) none none).1 =
      .ok (.oObj [("id", .oNum 1), ("friend", .oObj [("id", .oNum 2),
        ("friend", .oObj [("id", .oNum 3)])])])) := by
  refine ⟨?_, ?_, ?_, ?_, ?_, rfl⟩
  · intro c n j hn
    simp [effectiveMaxDepth, jsOrNum, hn]
  · intro opts j m ho hj hm
    simp [effectiveMaxDepth, jsOrNum, ho, hj, hm]
  · intro opts j ho hj
    simp [effectiveMaxDepth, jsOrNum, ho, hj]
  · intro env fuel value st ser opts hnull harr htriv hexc
    have hd : serializeDived env (fuel + 1) value ⟨st.parent, st.visited.dive⟩ ser opts =
        (.ok .oUndefined, ⟨st.parent, st.visited.dive⟩) := by
      simp only [serializeDived]
      simp [hexc]
    cases value with
    | vArr elems => exact absurd rfl (harr elems)
    | vNull => simp [isNull] at hnull
    | vUndefined => simp [isNull] at hnull
    | vBool b => simp only [serialize]; simp [isNull, htriv, hd, arise_dive]
    | vNum n => simp only [serialize]; simp [isNull, htriv, hd, arise_dive]
    | vStr s => simp only [serialize]; simp [isNull, htriv, hd, arise_dive]
    | vBigInt i => simp only [serialize]; simp [isNull, htriv, hd, arise_dive]
    | vSym i => simp only [serialize]; simp [isNull, htriv, hd, arise_dive]
    | vFunc i => simp only [serialize]; simp [isNull, htriv, hd, arise_dive]
    | vObj a => simp only [serialize]; simp [isNull, htriv, hd, arise_dive]
  · intro env fuel schema propertyName value rest opts st st1 st2 json r heval hfalse hser hrest
    simp only [serializeFields]
    simp [heval, hfalse, hser, hrest, Out.isUndef]

/-- Witness for C5 (amended): a nonzero call-option `maxDepth` of `1`
wins, and serializing the chain's node 4 from depth 1 descends to depth
2, exceeds it, and yields absent with the state restored. -/
theorem effectiveMaxDepth_spec_witness :
    effectiveMaxDepth (some ⟨none, some 1⟩) chainEnv.jsonthis.options = some 1 ∧
    serialize chainEnv 2 (.vObj 4) ⟨none, VisitMap.init.dive⟩ none
      (some ⟨none, some 1⟩) = (.ok .oUndefined, ⟨none, VisitMap.init.dive⟩) :=
  ⟨effectiveMaxDepth_spec.1 none 1 chainEnv.jsonthis.options (by decide),
    effectiveMaxDepth_spec.2.2.2.1 chainEnv 0 (.vObj 4) ⟨none, VisitMap.init.dive⟩
      none (some ⟨none, some 1⟩) rfl (fun elems => by exact fun h => JsVal.noConfusion h)
      rfl (by decide)⟩

/-- Every key of the field loop's output is the cased name of one of
the traversed fields. -/
theorem serializeFields_keys (env : Env) : ∀ (fuel : Nat) (schema : Option JsonSchema)
    (fields : List (String × JsVal)) (opts : Option ToJsonOptions)
    (st st2 : JsonTraversalState) (out : List (String × Out)),
    serializeFields env fuel schema fields opts st = (.ok out, st2) →
    ∀ k r, (k, r) ∈ out →
      k ∈ fields.map (fun p => propertyNameToString env.caseFns env.jsonthis.options p.1) := by
  intro fuel
  induction fuel with
  | zero =>
    intro schema fields opts st st2 out h
    simp [serializeFields] at h
  | succ fuel ih =>
    intro schema fields opts st st2 out h k r hk
    cases fields with
    | nil =>
      simp [serializeFields] at h
      obtain ⟨h1, h2⟩ := h
      subst h1
      simp at hk
    | cons p rest =>
      obtain ⟨propertyName, value⟩ := p
      simp only [serializeFields] at h
      split at h
      · simp at h
      · split at h
        · have hmem := ih schema rest opts st st2 out h k r hk
          simpa using Or.inr (by simpa using hmem)
        · split at h
          · split at h
            · split at h
              · simp at h
                obtain ⟨h1, h2⟩ := h
                subst h1
                have hmem := ih _ _ _ _ _ _ (by assumption) k r hk
                simpa using Or.inr (by simpa using hmem)
              · simp at h
                obtain ⟨h1, h2⟩ := h
                subst h1
                rcases List.mem_cons.mp hk with hhd | htl
                · simp only [List.map_cons, List.mem_cons]
                  left
                  exact congrArg Prod.fst hhd
                · have hmem := ih _ _ _ _ _ _ (by assumption) k r htl
                  simpa using Or.inr (by simpa using hmem)
            · simp at h
          · simp at h

/-- C9: a field whose visibility policy evaluates to exactly `false`
is skipped entirely — the field loop continues with the remaining
fields and the output object contains no key for it, regardless of the
field's value; a visibility result that is anything other than exactly
`false` (including absent) does not suppress the field, which proceeds
to serialization and appears with its serialized value whenever that
value is not `undefined`. -/
theorem serializeFields_visibility_spec (env : Env) (fuel : Nat)
    (schema : Option JsonSchema) (propertyName : String) (value : JsVal)
    (rest : List (String × JsVal)) (opts : Option ToJsonOptions)
    (st : JsonTraversalState) :
    (∀ r, evaluateJsonTraversalFn (fieldOptionsFor schema propertyName).visible
        env.ref st value opts = .ok r →
      isFalseVal r = true →
      (serializeFields env (fuel + 1) schema ((propertyName, value) :: rest) opts st =
        serializeFields env fuel schema rest opts st) ∧
      (∀ out st2,
        serializeFields env (fuel + 1) schema ((propertyName, value) :: rest) opts st =
          (.ok out, st2) →
        (propertyNameToString env.caseFns env.jsonthis.options propertyName ∉
          rest.map (fun p => propertyNameToString env.caseFns env.jsonthis.options p.1)) →
        ∀ r2, (propertyNameToString env.caseFns env.jsonthis.options propertyName, r2) ∉ out)) ∧
    (∀ r, evaluateJsonTraversalFn (fieldOptionsFor schema propertyName).visible
        env.ref st value opts = .ok r →
      isFalseVal r = false →
      ∀ sv st1 json st2,
        serialize env fuel value st
          (effectiveSerializer env schema propertyName value) opts = (.ok sv, st1) →
        serializeFields env fuel schema rest opts st1 = (.ok json, st2) →
        sv.isUndef = false →
        serializeFields env (fuel + 1) schema ((propertyName, value) :: rest) opts st =
          (.ok ((propertyNameToString env.caseFns env.jsonthis.options propertyName, sv)
            :: json), st2)) := by
  constructor
  · intro r heval hfalse
    have hskip : serializeFields env (fuel + 1) schema
        ((propertyName, value) :: rest) opts st =
        serializeFields env fuel schema rest opts st := by
      simp only [serializeFields]
      simp [heval, hfalse]
    refine ⟨hskip, fun out st2 hout hkey r2 hmem => ?_⟩
    rw [hskip] at hout
    exact hkey (serializeFields_keys env fuel schema rest opts st st2 out hout _ r2 hmem)
  · intro r heval hfalse sv st1 json st2 hser hrest hundef
    simp only [serializeFields]
    simp [heval, hfalse, hser, hrest, hundef]

/-- A schema with an always-hidden field `secret` and a plain field
`id`, plus an object carrying both, for the visibility witness. -/
def schemaV : JsonSchema :=
  ⟨none, [("secret", ⟨.const (.vBool false), none⟩)]⟩

def envV : Env :=
  ⟨⟨0⟩, ⟨⟨false, none, none, none, none⟩, []⟩,
    fun t => if t = tagU then some schemaV else none,
    ⟨fun s => s, fun s => s, fun s => s⟩,
    [(1, ⟨tagU, false, [("secret", .vStr "hide me"), ("id", .vNum 7)]⟩)]⟩

/-- Witness for C9: the `secret` field with `visible = false` is
skipped (no `secret` key can occur in the output), while the unknown
field `id`, whose visibility is absent, is serialized and kept. -/
theorem serializeFields_visibility_spec_witness :
    (serializeFields envV 9 (some schemaV)
      [("secret", .vStr "hide me"), ("id", .vNum 7)] none ⟨some (.vObj 1), VisitMap.init⟩ =
      serializeFields envV 8 (some schemaV) [("id", .vNum 7)] none
        ⟨some (.vObj 1), VisitMap.init⟩) ∧
    (∀ r2, ("secret", r2) ∉ [("id", Out.oNum 7)]) ∧
    serializeFields envV 9 (some schemaV) [("id", .vNum 7)] none
      ⟨some (.vObj 1), VisitMap.init⟩ =
      (.ok [("id", .oNum 7)], ⟨some (.vObj 1), VisitMap.init⟩) := by
  refine ⟨((serializeFields_visibility_spec envV 8 (some schemaV) "secret"
      (.vStr "hide me") [("id", .vNum 7)] none ⟨some (.vObj 1), VisitMap.init⟩).1
      (some (.vBool false)) rfl rfl).1, ?_, ?_⟩
  · have h := ((serializeFields_visibility_spec envV 8 (some schemaV) "secret"
      (.vStr "hide me") [("id", .vNum 7)] none ⟨some (.vObj 1), VisitMap.init⟩).1
      (some (.vBool false)) rfl rfl).2 [("id", .oNum 7)] ⟨some (.vObj 1), VisitMap.init⟩
      rfl (by simp [propertyNameToString, envV])
    simpa [propertyNameToString, envV] using h
  · exact (serializeFields_visibility_spec envV 8 (some schemaV) "id" (.vNum 7)
      [] none ⟨some (.vObj 1), VisitMap.init⟩).2 none rfl rfl (.oNum 7)
      ⟨some (.vObj 1), VisitMap.init⟩ [] ⟨some (.vObj 1), VisitMap.init⟩ rfl rfl rfl

mutual

/-- The heap addresses a value mentions: an object's own address; for
an array, the addresses its elements mention (arrays are traversed
element-wise and carry no tracked identity of their own). -/
def addrsIn : JsVal → List Nat
  | .vObj a => [a]
  | .vArr elems => addrsInList elems
  | _ => []

def addrsInList : List JsVal → List Nat
  | [] => []
  | v :: rest => addrsIn v ++ addrsInList rest

end

/-- The addresses a heap object's field values mention. -/
def nodeAddrs (node : ObjNode) : List Nat :=
  addrsInList (node.fields.map (fun p => p.2))

/-- One step of reachability in the object graph: the object at `a`
has a field whose value mentions `b`. -/
def heapEdge (heap : Heap) (a b : Nat) : Prop :=
  ∃ node, heapGet heap a = some node ∧ b ∈ nodeAddrs node

/-- An acyclic object graph: no object reaches itself through one or
more field steps. -/
def Acyclic (heap : Heap) : Prop :=
  ∀ a, ¬ Relation.TransGen (heapEdge heap) a a

/-- A value is recorded at some currently-live level of a tracker. -/
def memLive (m : VisitMap) (w : JsVal) : Prop :=
  ∃ level, level ∈ m.depths ∧ w ∈ level

/-- Every identity recorded live in the tracker strictly reaches (one
or more steps) every address that `v` mentions: the live set consists
of strict ancestors of `v`. -/
def goodS (heap : Heap) (m : VisitMap) (v : JsVal) : Prop :=
  ∀ w, memLive m w → ∀ a ∈ addrsIn w, ∀ b ∈ addrsIn v,
    Relation.TransGen (heapEdge heap) a b

/-- Weak form used for `toJson`: the live set reaches every address `v`
mentions in zero or more steps (`v` itself may be recorded). -/
def goodT (heap : Heap) (m : VisitMap) (v : JsVal) : Prop :=
  ∀ w, memLive m w → ∀ a ∈ addrsIn w, ∀ b ∈ addrsIn v,
    Relation.ReflTransGen (heapEdge heap) a b

/-- Whether an error is the circular-reference error. -/
def JsError.isCircularErr : JsError → Bool
  | .circularReference _ _ => true
  | _ => false

/-- Whether a result is the circular-reference error. -/
def isCircular {α : Type} : Except JsError α → Bool
  | .error e => e.isCircularErr
  | .ok _ => false

@[simp] theorem isCircular_ok {α : Type} (x : α) :
    isCircular (.ok x : Except JsError α) = false := rfl

@[simp] theorem isCircular_error {α : Type} (e : JsError) :
    isCircular (.error e : Except JsError α) = e.isCircularErr := rfl

theorem jsEq_vObj (w : JsVal) (a : Nat) : jsEq w (.vObj a) = true ↔ w = .vObj a := by
  cases w <;> simp [jsEq]

theorem has_memLive {m : VisitMap} {v : JsVal} (h : m.has v = true) :
    ∃ w, memLive m w ∧ jsEq w v = true := by
  simp only [VisitMap.has, List.any_eq_true] at h
  obtain ⟨level, hlevel, w, hw, hjs⟩ := h
  exact ⟨w, ⟨level, hlevel, hw⟩, hjs⟩

theorem memLive_add {m : VisitMap} {v w : JsVal} (h : memLive (m.add v) w) :
    memLive m w ∨ w = v := by
  obtain ⟨dep, d⟩ := m
  cases dep with
  | nil => exact Or.inl h
  | cons level rest =>
    obtain ⟨level', hlevel', hw⟩ := h
    simp only [VisitMap.add] at hlevel'
    rcases List.mem_cons.mp hlevel' with heq | hmem
    · subst heq
      rcases List.mem_cons.mp hw with heq | hmem2
    -- the new head level is `v :: level`: `w` is `v` or was in the old head
      · exact Or.inr heq
      · exact Or.inl ⟨level, List.mem_cons_self _ _, hmem2⟩
    · exact Or.inl ⟨level', List.mem_cons_of_mem _ hmem, hw⟩

theorem memLive_visit {m : VisitMap} {v w : JsVal}
    (h : memLive (m.visit v).2 w) : memLive m w ∨ w = v := by
  unfold VisitMap.visit at h
  split at h
  · split at h
    · exact Or.inl h
    · exact memLive_add h
  · exact Or.inl h

theorem memLive_dive {m : VisitMap} {w : JsVal} (h : memLive m.dive w) :
    memLive m w := by
  obtain ⟨level, hlevel, hw⟩ := h
  simp only [VisitMap.dive] at hlevel
  rcases List.mem_cons.mp hlevel with heq | hmem
  · subst heq; simp at hw
  · exact ⟨level, hmem, hw⟩

theorem memLive_init {w : JsVal} (h : memLive VisitMap.init w) : False := by
  obtain ⟨level, hlevel, hw⟩ := h
  simp only [VisitMap.init] at hlevel
  rcases List.mem_cons.mp hlevel with heq | hmem
  · subst heq; simp at hw
  · simp at hmem

theorem memLive_rootMark {st0 : JsonTraversalState} {v w : JsVal}
    (h : memLive (rootMark st0 v).visited w) : memLive st0.visited w ∨ w = v := by
  unfold rootMark at h
  split at h
  · exact memLive_visit h
  · exact Or.inl h

theorem goodS_dive {heap : Heap} {m : VisitMap} {v : JsVal}
    (h : goodS heap m v) : goodS heap m.dive v :=
  fun w hw => h w (memLive_dive hw)

/-- Addresses mentioned by a list element are mentioned by the list. -/
theorem mem_addrsInList {elems : List JsVal} {e : JsVal} (he : e ∈ elems)
    {b : Nat} (hb : b ∈ addrsIn e) : b ∈ addrsInList elems := by
  induction elems with
  | nil => simp at he
  | cons x rest ih =>
    rw [addrsInList]
    rcases List.mem_cons.mp he with heq | hmem
    · subst heq; exact List.mem_append_left _ hb
    · exact List.mem_append_right _ (ih hmem)

theorem goodS_elem {heap : Heap} {m : VisitMap} {elems : List JsVal}
    (h : goodS heap m (.vArr elems)) {e : JsVal} (he : e ∈ elems) :
    goodS heap m e := by
  intro w hw a ha b hb
  refine h w hw a ha b ?_
  show b ∈ addrsIn (.vArr elems)
  rw [addrsIn]
  exact mem_addrsInList he hb

theorem goodT_elem {heap : Heap} {m : VisitMap} {elems : List JsVal}
    (h : goodT heap m (.vArr elems)) {e : JsVal} (he : e ∈ elems) :
    goodT heap m e := by
  intro w hw a ha b hb
  refine h w hw a ha b ?_
  show b ∈ addrsIn (.vArr elems)
  rw [addrsIn]
  exact mem_addrsInList he hb

theorem goodT_of_goodS {heap : Heap} {m : VisitMap} {v : JsVal}
    (h : goodS heap m v) : goodT heap m v :=
  fun w hw a ha b hb => (h w hw a ha b hb).to_reflTransGen

/-- A heap object's field value mentions only addresses the node
mentions. -/
theorem nodeAddrs_of_field {node : ObjNode} {propertyName : String}
    {w : JsVal} (hmem : (propertyName, w) ∈ node.fields) {b : Nat}
    (hb : b ∈ addrsIn w) : b ∈ nodeAddrs node := by
  unfold nodeAddrs
  have hw : w ∈ node.fields.map (fun p => p.2) :=
    List.mem_map.mpr ⟨(propertyName, w), hmem, rfl⟩
  exact mem_addrsInList hw hb

/-- `visit` answers true only for `typeof`-object values already
recorded at a live level. -/
theorem visit_fst_true {m : VisitMap} {v : JsVal}
    (h : (m.visit v).1 = true) : typeofObject v = true ∧ m.has v = true := by
  unfold VisitMap.visit at h
  split at h
  · split at h
    · next h1 h2 => exact ⟨h1, h2⟩
    · simp at h
  · simp at h

/-- For a non-array value, all mentioned addresses coincide. -/
theorem addrsIn_single {v : JsVal} (harr : ∀ elems, v ≠ .vArr elems)
    {a b : Nat} (ha : a ∈ addrsIn v) (hb : b ∈ addrsIn v) : a = b := by
  cases v with
  | vObj c =>
    simp [addrsIn] at ha hb
    rw [ha, hb]
  | vArr elems => exact absurd rfl (harr elems)
  | vUndefined => simp [addrsIn] at ha
  | vNull => simp [addrsIn] at ha
  | vBool x => simp [addrsIn] at ha
  | vNum x => simp [addrsIn] at ha
  | vStr x => simp [addrsIn] at ha
  | vBigInt x => simp [addrsIn] at ha
  | vSym x => simp [addrsIn] at ha
  | vFunc x => simp [addrsIn] at ha

/-- The evaluator never raises the circular-reference error. -/
theorem evalOut_not_circular (fn : JsonTraversalCandidate Out) (ref : EngineRef)
    (st : JsonTraversalState) (v : JsVal) (o : Option ToJsonOptions) :
    isCircular (evalOut (evaluateJsonTraversalFn fn ref st v o)) = false := by
  cases fn with
  | undef => rfl
  | const r => rfl
  | callable f => cases f <;> rfl

/-- The evaluator's only error is the invalid-arity error. -/
theorem evaluate_error_arity {R : Type} {fn : JsonTraversalCandidate R}
    {ref : EngineRef} {st : JsonTraversalState} {v : JsVal}
    {o : Option ToJsonOptions} {e : JsError}
    (h : evaluateJsonTraversalFn fn ref st v o = .error e) :
    e = .invalidTraversalFnArity := by
  cases fn with
  | undef => simp [evaluateJsonTraversalFn] at h
  | const r => simp [evaluateJsonTraversalFn] at h
  | callable f =>
    cases f with
    | fn1 g => simp [evaluateJsonTraversalFn] at h
    | fn2 g => simp [evaluateJsonTraversalFn] at h
    | fn4 g => simp [evaluateJsonTraversalFn] at h
    | fnOther n hn =>
      simp [evaluateJsonTraversalFn] at h
      exact h.symm

/-- No-circular-error discipline of the engine on an acyclic heap,
proved by one induction on the fuel: as long as every identity recorded
live in the tracker is a strict ancestor of the value being serialized
(which holds for the fresh state of an entry-point call), no function
of the engine ever produces the circular-reference error. -/
theorem circAux (env : Env) (hacyc : Acyclic env.heap) : ∀ fuel : Nat,
    (∀ v opts stIn schemaIn,
      (∀ st, stIn = some st → goodT env.heap st.visited v ∧
        (st.parent = none → ∀ elems, v ≠ .vArr elems)) →
      isCircular (toJson env fuel v opts stIn schemaIn).1 = false) ∧
    (∀ v opts st0 schemaIn, goodT env.heap st0.visited v →
      isCircular (toJsonObj env fuel v opts st0 schemaIn).1 = false) ∧
    (∀ elems opts stIn schemaIn,
      (∀ st, stIn = some st → st.parent ≠ none ∧
        ∀ e ∈ elems, goodT env.heap st.visited e) →
      isCircular (mapToJson env fuel elems opts stIn schemaIn).1 = false) ∧
    (∀ schema fields opts st,
      (∀ p ∈ fields, goodS env.heap st.visited p.2) →
      isCircular (serializeFields env fuel schema fields opts st).1 = false) ∧
    (∀ v st ser opts, goodS env.heap st.visited v →
      isCircular (serialize env fuel v st ser opts).1 = false) ∧
    (∀ v st ser opts, goodS env.heap st.visited v →
      isNull v = false → (∀ elems, v ≠ .vArr elems) →
      isCircular (serializeDived env fuel v st ser opts).1 = false) ∧
    (∀ elems st ser opts,
      (∀ e ∈ elems, goodS env.heap st.visited e) →
      isCircular (serializeElems env fuel elems st ser opts).1 = false) := by
  intro fuel
  induction fuel with
  | zero =>
    exact ⟨fun _ _ _ _ _ => rfl, fun _ _ _ _ _ => rfl, fun _ _ _ _ _ => rfl,
      fun _ _ _ _ _ => rfl, fun _ _ _ _ _ => rfl, fun _ _ _ _ _ _ _ => rfl,
      fun _ _ _ _ _ => rfl⟩
  | succ fuel ih =>
    obtain ⟨ihT, ihO, ihM, ihF, ihS, ihD, ihE⟩ := ih
    refine ⟨?_, ?_, ?_, ?_, ?_, ?_, ?_⟩
    · -- toJson
      intro v opts stIn schemaIn hst
      simp only [toJson]
      split
      · rfl
      · split
        · next elems _ =>
          have hm : isCircular (mapToJson env fuel elems opts stIn schemaIn).1 = false := by
            apply ihM
            intro st hsome
            obtain ⟨hgood, hnot⟩ := hst st hsome
            refine ⟨fun hpar => absurd rfl (hnot hpar elems), fun e he => goodT_elem hgood he⟩
          rcases hmm : mapToJson env fuel elems opts stIn schemaIn with ⟨r, so⟩
          rw [hmm] at hm
          cases r with
          | ok l => simp [isCircular]
          | error e => simpa using hm
        · cases stIn with
          | none =>
            have h0 : goodT env.heap
                ((⟨none, VisitMap.init⟩ : JsonTraversalState)).visited v :=
              fun w hw => (memLive_init hw).elim
            have ho := ihO v opts ⟨none, VisitMap.init⟩ schemaIn h0
            rcases hobj : toJsonObj env fuel v opts ⟨none, VisitMap.init⟩ schemaIn with ⟨r, so⟩
            rw [hobj] at ho
            simpa using ho
          | some st =>
            obtain ⟨hgood, _⟩ := hst st rfl
            have ho := ihO v opts st schemaIn hgood
            rcases hobj : toJsonObj env fuel v opts st schemaIn with ⟨r, so⟩
            rw [hobj] at ho
            simpa using ho
    · -- toJsonObj
      intro v opts st0 schemaIn hgood
      simp only [toJsonObj]
      split
      · exact evalOut_not_circular _ _ _ _ _
      · split
        · exact evalOut_not_circular _ _ _ _ _
        · split
          · rfl
          · have hcf : ∀ p ∈ objFields env v,
                goodS env.heap (rootMark st0 v).visited p.2 := by
              intro p hp
              cases v with
              | vObj c =>
                simp only [objFields] at hp
                rcases hnode : heapGet env.heap c with _ | node
                · rw [hnode] at hp; simp at hp
                · rw [hnode] at hp
                  obtain ⟨pn, pv⟩ := p
                  intro w hw a ha b hb
                  have hedge : heapEdge env.heap c b :=
                    ⟨node, hnode, nodeAddrs_of_field hp hb⟩
                  rcases memLive_rootMark hw with hold | heqv
                  · have hreach : Relation.ReflTransGen (heapEdge env.heap) a c :=
                      hgood w hold a ha c (by simp [addrsIn])
                    exact Relation.TransGen.tail' hreach hedge
                  · subst heqv
                    have hac : a = c := by simpa [addrsIn] using ha
                    subst hac
                    exact Relation.TransGen.single hedge
              | vArr elems => simp [objFields] at hp
              | vNull => simp [objFields] at hp
              | vUndefined => simp [objFields] at hp
              | vBool b => simp [objFields] at hp
              | vNum n => simp [objFields] at hp
              | vStr s => simp [objFields] at hp
              | vBigInt i => simp [objFields] at hp
              | vSym sy => simp [objFields] at hp
              | vFunc fi => simp [objFields] at hp
            have hf0 := ihF (resolveSchema env schemaIn v) (objFields env v) opts
              ⟨some v, (rootMark st0 v).visited⟩ hcf
            rcases hf : serializeFields env fuel (resolveSchema env schemaIn v)
              (objFields env v) opts ⟨some v, (rootMark st0 v).visited⟩ with ⟨r, st3⟩
            rw [hf] at hf0
            cases r with
            | ok fields => simp [isCircular]
            | error e => simpa using hf0
    · -- mapToJson
      intro elems opts stIn schemaIn hyp
      cases elems with
      | nil => cases stIn <;> rfl
      | cons e rest =>
        simp only [mapToJson]
        have ht : isCircular (toJson env fuel e opts stIn schemaIn).1 = false := by
          apply ihT
          intro st hsome
          obtain ⟨hpar, hgoods⟩ := hyp st hsome
          exact ⟨hgoods e (List.mem_cons_self _ _), fun hpn => absurd hpn hpar⟩
        rcases hj : toJson env fuel e opts stIn schemaIn with ⟨r, so⟩
        rw [hj] at ht
        cases r with
        | error err => simpa using ht
        | ok o =>
          have hm : isCircular (mapToJson env fuel rest opts so schemaIn).1 = false := by
            apply ihM
            intro st1 hsome1
            cases stIn with
            | none =>
              have hnone := ((stateAux env fuel).1 e opts none schemaIn).1 rfl
              rw [hj] at hnone
              simp only at hnone
              rw [hnone] at hsome1
              exact absurd hsome1 (by simp)
            | some st =>
              obtain ⟨hpar, hgoods⟩ := hyp st rfl
              obtain ⟨st', hst', htail, hcond⟩ :=
                ((stateAux env fuel).1 e opts (some st) schemaIn).2 st rfl
              rw [hj] at hst'
              simp only at hst'
              rw [hst'] at hsome1
              have heq : st' = st1 := Option.some.inj hsome1
              subst heq
              obtain ⟨hvis, hpar'⟩ := hcond hpar
              refine ⟨hpar', fun e2 he2 => ?_⟩
              rw [hvis]
              exact hgoods e2 (List.mem_cons_of_mem _ he2)
          rcases hmm : mapToJson env fuel rest opts so schemaIn with ⟨r2, so2⟩
          rw [hmm] at hm
          cases r2 with
          | ok l => simp [hmm, isCircular]
          | error err => simpa [hmm] using hm
    · -- serializeFields
      intro schema fields opts st hyp
      cases fields with
      | nil => rfl
      | cons p rest =>
        obtain ⟨propertyName, value⟩ := p
        simp only [serializeFields]
        split
        · next e heval =>
          rw [evaluate_error_arity heval]
          rfl
        · split
          · exact ihF schema rest opts st (fun p hp => hyp p (List.mem_cons_of_mem _ hp))
          · have hs0 : isCircular (serialize env fuel value st
                (effectiveSerializer env schema propertyName value) opts).1 = false :=
              ihS value st _ opts (hyp (propertyName, value) (List.mem_cons_self _ _))
            rcases hs : serialize env fuel value st
              (effectiveSerializer env schema propertyName value) opts with ⟨r, st1⟩
            rw [hs] at hs0
            cases r with
            | error e1 => simpa using hs0
            | ok sv =>
              have hvis : st1.visited = st.visited := by
                have hx := ((stateAux env fuel).2.2.2.2.1 value st
                  (effectiveSerializer env schema propertyName value) opts).1
                rw [hs] at hx
                exact hx
              have hf0 : isCircular (serializeFields env fuel schema rest opts st1).1 = false := by
                apply ihF
                intro p hp
                rw [hvis]
                exact hyp p (List.mem_cons_of_mem _ hp)
              rcases hf : serializeFields env fuel schema rest opts st1 with ⟨r2, st2⟩
              rw [hf] at hf0
              cases r2 with
              | error e2 => simpa [hf] using hf0
              | ok json =>
                simp only [hf]
                split <;> simp
    · -- serialize
      intro v st ser opts hgood
      cases v
      case vNull => simp [serialize, isNull]
      case vUndefined => simp [serialize, isNull]
      case vArr elems =>
        simp only [serialize, isNull]
        have he0 : isCircular (serializeElems env fuel elems st ser opts).1 = false :=
          ihE elems st ser opts (fun e he => goodS_elem hgood he)
        rcases he : serializeElems env fuel elems st ser opts with ⟨r, st1⟩
        rw [he] at he0
        cases r with
        | ok l => simp [isCircular]
        | error e => simpa using he0
      case vBool b =>
        simp only [serialize, isNull]
        rcases hts : trivialShortcut env ser (JsVal.vBool b) with _ | result
        · have hd := ihD (JsVal.vBool b) ⟨st.parent, st.visited.dive⟩ ser opts
            (goodS_dive hgood) rfl (fun elems h => nomatch h)
          rcases hdd : serializeDived env fuel (JsVal.vBool b)
            ⟨st.parent, st.visited.dive⟩ ser opts with ⟨r, so⟩
          rw [hdd] at hd
          simpa using hd
        · simp
      case vNum n =>
        simp only [serialize, isNull]
        rcases hts : trivialShortcut env ser (JsVal.vNum n) with _ | result
        · have hd := ihD (JsVal.vNum n) ⟨st.parent, st.visited.dive⟩ ser opts
            (goodS_dive hgood) rfl (fun elems h => nomatch h)
          rcases hdd : serializeDived env fuel (JsVal.vNum n)
            ⟨st.parent, st.visited.dive⟩ ser opts with ⟨r, so⟩
          rw [hdd] at hd
          simpa using hd
        · simp
      case vStr s =>
        simp only [serialize, isNull]
        rcases hts : trivialShortcut env ser (JsVal.vStr s) with _ | result
        · have hd := ihD (JsVal.vStr s) ⟨st.parent, st.visited.dive⟩ ser opts
            (goodS_dive hgood) rfl (fun elems h => nomatch h)
          rcases hdd : serializeDived env fuel (JsVal.vStr s)
            ⟨st.parent, st.visited.dive⟩ ser opts with ⟨r, so⟩
          rw [hdd] at hd
          simpa using hd
        · simp
      case vBigInt i =>
        simp only [serialize, isNull]
        rcases hts : trivialShortcut env ser (JsVal.vBigInt i) with _ | result
        · have hd := ihD (JsVal.vBigInt i) ⟨st.parent, st.visited.dive⟩ ser opts
            (goodS_dive hgood) rfl (fun elems h => nomatch h)
          rcases hdd : serializeDived env fuel (JsVal.vBigInt i)
            ⟨st.parent, st.visited.dive⟩ ser opts with ⟨r, so⟩
          rw [hdd] at hd
          simpa using hd
        · simp
      case vSym sy =>
        simp only [serialize, isNull]
        rcases hts : trivialShortcut env ser (JsVal.vSym sy) with _ | result
        · have hd := ihD (JsVal.vSym sy) ⟨st.parent, st.visited.dive⟩ ser opts
            (goodS_dive hgood) rfl (fun elems h => nomatch h)
          rcases hdd : serializeDived env fuel (JsVal.vSym sy)
            ⟨st.parent, st.visited.dive⟩ ser opts with ⟨r, so⟩
          rw [hdd] at hd
          simpa using hd
        · simp
      case vFunc fi =>
        simp only [serialize, isNull]
        rcases hts : trivialShortcut env ser (JsVal.vFunc fi) with _ | result
        · have hd := ihD (JsVal.vFunc fi) ⟨st.parent, st.visited.dive⟩ ser opts
            (goodS_dive hgood) rfl (fun elems h => nomatch h)
          rcases hdd : serializeDived env fuel (JsVal.vFunc fi)
            ⟨st.parent, st.visited.dive⟩ ser opts with ⟨r, so⟩
          rw [hdd] at hd
          simpa using hd
        · simp
      case vObj c =>
        simp only [serialize, isNull]
        rcases hts : trivialShortcut env ser (JsVal.vObj c) with _ | result
        · have hd := ihD (JsVal.vObj c) ⟨st.parent, st.visited.dive⟩ ser opts
            (goodS_dive hgood) rfl (fun elems h => nomatch h)
          rcases hdd : serializeDived env fuel (JsVal.vObj c)
            ⟨st.parent, st.visited.dive⟩ ser opts with ⟨r, so⟩
          rw [hdd] at hd
          simpa using hd
        · simp
    · -- serializeDived
      intro v st ser opts hgood hnull harr
      simp only [serializeDived]
      split
      · rfl
      · split
        · next visited1 hvisit =>
          obtain ⟨htyp, hhas⟩ := visit_fst_true (by rw [hvisit])
          obtain ⟨w, hmem, hjs⟩ := has_memLive hhas
          cases v with
          | vObj c =>
            have hwv : w = .vObj c := (jsEq_vObj w c).mp hjs
            subst hwv
            have hcyc := hgood _ hmem c (by simp [addrsIn]) c (by simp [addrsIn])
            exact absurd hcyc (hacyc c)
          | vNull => simp [isNull] at hnull
          | vUndefined => simp [isNull] at hnull
          | vArr elems => exact absurd rfl (harr elems)
          | vBool b => simp [typeofObject] at htyp
          | vNum n => simp [typeofObject] at htyp
          | vStr s => simp [typeofObject] at htyp
          | vBigInt i => simp [typeofObject] at htyp
          | vSym sy => simp [typeofObject] at htyp
          | vFunc fi => simp [typeofObject] at htyp
        · next visited1 hvisit =>
          split
          · exact evalOut_not_circular _ _ _ _ _
          · have hT : isCircular (toJson env fuel v opts
                (some ⟨st.parent, visited1⟩) none).1 = false := by
              apply ihT
              intro stx hx
              have hxeq : (⟨st.parent, visited1⟩ : JsonTraversalState) = stx :=
                Option.some.inj hx
              subst hxeq
              constructor
              · intro w hw a ha b hb
                have hw' : memLive st.visited w ∨ w = v := by
                  apply memLive_visit (m := st.visited) (v := v)
                  rw [hvisit]
                  exact hw
                rcases hw' with hold | heq
                · exact (hgood w hold a ha b hb).to_reflTransGen
                · subst heq
                  rw [addrsIn_single harr ha hb]
              · exact fun _ => harr
            rcases hj : toJson env fuel v opts (some ⟨st.parent, visited1⟩) none with ⟨r, so⟩
            rw [hj] at hT
            cases so with
            | some st2 => simpa using hT
            | none => simpa using hT
    · -- serializeElems
      intro elems st ser opts hyp
      cases elems with
      | nil => rfl
      | cons e rest =>
        simp only [serializeElems]
        have hs0 := ihS e st ser opts (hyp e (List.mem_cons_self _ _))
        rcases hs : serialize env fuel e st ser opts with ⟨r, st1⟩
        rw [hs] at hs0
        cases r with
        | error err => simpa using hs0
        | ok o =>
          have hvis : st1.visited = st.visited := by
            have hx := ((stateAux env fuel).2.2.2.2.1 e st ser opts).1
            rw [hs] at hx
            exact hx
          have he0 : isCircular (serializeElems env fuel rest st1 ser opts).1 = false := by
            apply ihE
            intro e2 he2
            rw [hvis]
            exact hyp e2 (List.mem_cons_of_mem _ he2)
          rcases he : serializeElems env fuel rest st1 ser opts with ⟨r2, st2⟩
          rw [he] at he0
          cases r2 with
          | ok l => simp [he, isCircular]
          | error err => simpa [he] using he0

/-- A traversal function that does not receive the traversal state: its
result cannot depend on it. -/
def notFn4 {R : Type} : JsonTraversalFn R → Prop
  | .fn4 _ => False
  | _ => True

def candBlind {R : Type} : JsonTraversalCandidate R → Prop
  | .callable f => notFn4 f
  | _ => True

/-- All traversal functions a schema can hand to the engine are
state-blind. -/
def schemaBlind : Option JsonSchema → Prop
  | none => True
  | some sc =>
    (∀ f, sc.serializer = some f → notFn4 f) ∧
    (∀ name fo, definedFieldsGet sc.definedFields name = some fo →
      candBlind fo.visible ∧ (∀ f, fo.serializer = some f → notFn4 f))

/-- No traversal function reachable from the environment's schema store
or global serializer registry receives the traversal state. -/
def StateBlind (env : Env) : Prop :=
  (∀ t, schemaBlind (env.schemaStore t)) ∧
  (∀ p ∈ env.jsonthis.serializers, notFn4 p.2)

/-- A state-blind candidate evaluates identically in any two states. -/
theorem evaluate_blind {R : Type} {c : JsonTraversalCandidate R}
    (h : candBlind c) (ref : EngineRef) (st st' : JsonTraversalState)
    (v : JsVal) (o : Option ToJsonOptions) :
    evaluateJsonTraversalFn c ref st v o = evaluateJsonTraversalFn c ref st' v o := by
  cases c with
  | undef => rfl
  | const r => rfl
  | callable f =>
    cases f with
    | fn1 g => rfl
    | fn2 g => rfl
    | fn4 g => exact h.elim
    | fnOther n hn => rfl

theorem schemaBlind_resolve {env : Env} (hblind : StateBlind env)
    (v : JsVal) : schemaBlind (resolveSchema env none v) := by
  unfold resolveSchema schemaGet
  cases constructorOf env.heap v with
  | none => trivial
  | some t => exact hblind.1 t

theorem serializersGet_blind {env : Env} (hblind : StateBlind env)
    {t : Option TypeTag} {f : JsonTraversalFn Out}
    (h : serializersGet env.jsonthis.serializers t = some f) : notFn4 f := by
  cases t with
  | none => simp [serializersGet] at h
  | some tag =>
    simp only [serializersGet] at h
    rcases hf : env.jsonthis.serializers.find? (fun p => p.1 == tag) with _ | p
    · rw [hf] at h; simp at h
    · rw [hf] at h
      simp at h
      have hmem := List.mem_of_find?_eq_some hf
      have hp := hblind.2 p hmem
      rw [← h]
      exact hp

theorem fieldOptionsFor_blind {schema : Option JsonSchema}
    (hs : schemaBlind schema) (name : String) :
    candBlind (fieldOptionsFor schema name).visible ∧
    (∀ f, (fieldOptionsFor schema name).serializer = some f → notFn4 f) := by
  cases schema with
  | none => exact ⟨trivial, fun f hf => by simp [fieldOptionsFor, JsonFieldOptions.empty] at hf⟩
  | some sc =>
    have he : fieldOptionsFor (some sc) name =
        (match definedFieldsGet sc.definedFields name with
          | some fo => fo
          | none => JsonFieldOptions.empty) := rfl
    rcases hfo : definedFieldsGet sc.definedFields name with _ | fo
    · simp only [he, hfo]
      exact ⟨trivial, fun f hf => by simp [JsonFieldOptions.empty] at hf⟩
    · simp only [he, hfo]
      exact hs.2 name fo hfo

theorem effectiveSerializer_blind {env : Env} (hblind : StateBlind env)
    {schema : Option JsonSchema} (hs : schemaBlind schema)
    (name : String) (value : JsVal) :
    ∀ f, effectiveSerializer env schema name value = some f → notFn4 f := by
  intro f hf
  unfold effectiveSerializer jsOr at hf
  split at hf
  · next g hg =>
    rw [Option.some.inj hf] at hg
    exact (fieldOptionsFor_blind hs name).2 f hg
  · exact serializersGet_blind hblind hf

/-- On a good state for an acyclic heap, `visit` never reports a
revisit (for the non-null, non-array values that reach it). -/
theorem visit_false_of_goodS {env : Env} (hacyc : Acyclic env.heap)
    {m : VisitMap} {v : JsVal} (hgood : goodS env.heap m v)
    (hnull : isNull v = false) (harr : ∀ elems, v ≠ .vArr elems) :
    (m.visit v).1 = false := by
  cases hv : (m.visit v).1 with
  | false => rfl
  | true =>
    obtain ⟨htyp, hhas⟩ := visit_fst_true hv
    obtain ⟨w, hmem, hjs⟩ := has_memLive hhas
    cases v with
    | vObj c =>
      have hwv : w = .vObj c := (jsEq_vObj w c).mp hjs
      subst hwv
      have hcyc := hgood _ hmem c (by simp [addrsIn]) c (by simp [addrsIn])
      exact absurd hcyc (hacyc c)
    | vNull => simp [isNull] at hnull
    | vUndefined => simp [isNull] at hnull
    | vArr elems => exact absurd rfl (harr elems)
    | vBool b => simp [typeofObject] at htyp
    | vNum n => simp [typeofObject] at htyp
    | vStr s => simp [typeofObject] at htyp
    | vBigInt i => simp [typeofObject] at htyp
    | vSym sy => simp [typeofObject] at htyp
    | vFunc fi => simp [typeofObject] at htyp

/-- On a good state the structural fields of `v` are good for the same
tracker: every live identity strictly reaches every address a field
value mentions, through `v`. -/
theorem goodS_fields {env : Env} {m : VisitMap} {v : JsVal}
    (hgood : goodT env.heap m v) :
    ∀ p ∈ objFields env v, goodS env.heap m p.2 := by
  intro p hp
  cases v with
  | vObj c =>
    simp only [objFields] at hp
    rcases hnode : heapGet env.heap c with _ | node
    · rw [hnode] at hp; simp at hp
    · rw [hnode] at hp
      obtain ⟨pn, pv⟩ := p
      intro w hw a ha b hb
      have hedge : heapEdge env.heap c b := ⟨node, hnode, nodeAddrs_of_field hp hb⟩
      have hreach : Relation.ReflTransGen (heapEdge env.heap) a c :=
        hgood w hw a ha c (by simp [addrsIn])
      exact Relation.TransGen.tail' hreach hedge
  | vArr elems => simp [objFields] at hp
  | vNull => simp [objFields] at hp
  | vUndefined => simp [objFields] at hp
  | vBool b => simp [objFields] at hp
  | vNum n => simp [objFields] at hp
  | vStr s => simp [objFields] at hp
  | vBigInt i => simp [objFields] at hp
  | vSym sy => simp [objFields] at hp
  | vFunc fi => simp [objFields] at hp

/-- After a good state visits `v`, the tracker is good for `v` in the
weak sense. -/
theorem goodT_after_visit {env : Env} {m : VisitMap} {v : JsVal}
    (hgood : goodS env.heap m v) (harr : ∀ elems, v ≠ .vArr elems)
    {visited1 : VisitMap} (hvisit : (m.visit v).2 = visited1) :
    goodT env.heap visited1 v := by
  intro w hw a ha b hb
  have hw' : memLive m w ∨ w = v := memLive_visit (hvisit ▸ hw)
  rcases hw' with hold | heq
  · exact (hgood w hold a ha b hb).to_reflTransGen
  · subst heq
    rw [addrsIn_single harr ha hb]

/-- State-independence of the engine on an acyclic heap with
state-blind traversal functions and no effective depth limit, proved by
one induction on the fuel: serializing a value from any two good states
produces the same result, so every occurrence of a shared value
serializes exactly as it would standalone. -/
theorem indAux (env : Env) (hacyc : Acyclic env.heap) (hblind : StateBlind env) :
    ∀ fuel : Nat,
    (∀ v opts (st st' : JsonTraversalState),
      effectiveMaxDepth opts env.jsonthis.options = none →
      goodT env.heap st.visited v → goodT env.heap st'.visited v →
      st.parent ≠ none → st'.parent ≠ none →
      (toJson env fuel v opts (some st) none).1 = (toJson env fuel v opts (some st') none).1) ∧
    (∀ v opts (st0 st0' : JsonTraversalState),
      effectiveMaxDepth opts env.jsonthis.options = none →
      goodT env.heap st0.visited v → goodT env.heap st0'.visited v →
      st0.parent ≠ none → st0'.parent ≠ none →
      (toJsonObj env fuel v opts st0 none).1 = (toJsonObj env fuel v opts st0' none).1) ∧
    (∀ elems opts (st st' : JsonTraversalState),
      effectiveMaxDepth opts env.jsonthis.options = none →
      st.parent ≠ none → st'.parent ≠ none →
      (∀ e ∈ elems, goodT env.heap st.visited e ∧ goodT env.heap st'.visited e) →
      (mapToJson env fuel elems opts (some st) none).1 =
        (mapToJson env fuel elems opts (some st') none).1) ∧
    (∀ schema fields opts (st st' : JsonTraversalState),
      effectiveMaxDepth opts env.jsonthis.options = none →
      schemaBlind schema →
      st.parent ≠ none → st'.parent ≠ none →
      (∀ p ∈ fields, goodS env.heap st.visited p.2 ∧ goodS env.heap st'.visited p.2) →
      (serializeFields env fuel schema fields opts st).1 =
        (serializeFields env fuel schema fields opts st').1) ∧
    (∀ v (st st' : JsonTraversalState) ser opts,
      effectiveMaxDepth opts env.jsonthis.options = none →
      (∀ f, ser = some f → notFn4 f) →
      goodS env.heap st.visited v → goodS env.heap st'.visited v →
      st.parent ≠ none → st'.parent ≠ none →
      (serialize env fuel v st ser opts).1 = (serialize env fuel v st' ser opts).1) ∧
    (∀ v (st st' : JsonTraversalState) ser opts,
      effectiveMaxDepth opts env.jsonthis.options = none →
      (∀ f, ser = some f → notFn4 f) →
      goodS env.heap st.visited v → goodS env.heap st'.visited v →
      st.parent ≠ none → st'.parent ≠ none →
      isNull v = false → (∀ elems, v ≠ .vArr elems) →
      (serializeDived env fuel v st ser opts).1 = (serializeDived env fuel v st' ser opts).1) ∧
    (∀ elems (st st' : JsonTraversalState) ser opts,
      effectiveMaxDepth opts env.jsonthis.options = none →
      (∀ f, ser = some f → notFn4 f) →
      st.parent ≠ none → st'.parent ≠ none →
      (∀ e ∈ elems, goodS env.heap st.visited e ∧ goodS env.heap st'.visited e) →
      (serializeElems env fuel elems st ser opts).1 =
        (serializeElems env fuel elems st' ser opts).1) := by
  intro fuel
  induction fuel with
  | zero =>
    exact ⟨fun _ _ _ _ _ _ _ _ _ => rfl, fun _ _ _ _ _ _ _ _ _ => rfl,
      fun _ _ _ _ _ _ _ _ => rfl, fun _ _ _ _ _ _ _ _ _ _ => rfl,
      fun _ _ _ _ _ _ _ _ _ _ _ => rfl, fun _ _ _ _ _ _ _ _ _ _ _ _ _ => rfl,
      fun _ _ _ _ _ _ _ _ _ _ => rfl⟩
  | succ fuel ih =>
    obtain ⟨ihT, ihO, ihM, ihF, ihS, ihD, ihE⟩ := ih
    refine ⟨?_, ?_, ?_, ?_, ?_, ?_, ?_⟩
    · -- toJson
      intro v opts st st' hfree hg hg' hp hp'
      cases v
      case vNull => simp [toJson, isNull]
      case vUndefined => simp [toJson, isNull]
      case vArr elems =>
        simp only [toJson, isNull]
        have hM := ihM elems opts st st' hfree hp hp'
          (fun e he => ⟨goodT_elem hg he, goodT_elem hg' he⟩)
        rcases h1 : mapToJson env fuel elems opts (some st) none with ⟨r1, so1⟩
        rcases h2 : mapToJson env fuel elems opts (some st') none with ⟨r2, so2⟩
        rw [h1, h2] at hM
        simp only at hM
        subst hM
        cases r1 <;> simp [h1, h2]
      case vBool b =>
        have hO := ihO (JsVal.vBool b) opts st st' hfree hg hg' hp hp'
        simp only [toJson, isNull]
        rcases h1 : toJsonObj env fuel (JsVal.vBool b) opts st none with ⟨r1, so1⟩
        rcases h2 : toJsonObj env fuel (JsVal.vBool b) opts st' none with ⟨r2, so2⟩
        rw [h1, h2] at hO
        simp only at hO
        subst hO
        simp [h1, h2]
      case vNum n =>
        have hO := ihO (JsVal.vNum n) opts st st' hfree hg hg' hp hp'
        simp only [toJson, isNull]
        rcases h1 : toJsonObj env fuel (JsVal.vNum n) opts st none with ⟨r1, so1⟩
        rcases h2 : toJsonObj env fuel (JsVal.vNum n) opts st' none with ⟨r2, so2⟩
        rw [h1, h2] at hO
        simp only at hO
        subst hO
        simp [h1, h2]
      case vStr s =>
        have hO := ihO (JsVal.vStr s) opts st st' hfree hg hg' hp hp'
        simp only [toJson, isNull]
        rcases h1 : toJsonObj env fuel (JsVal.vStr s) opts st none with ⟨r1, so1⟩
        rcases h2 : toJsonObj env fuel (JsVal.vStr s) opts st' none with ⟨r2, so2⟩
        rw [h1, h2] at hO
        simp only at hO
        subst hO
        simp [h1, h2]
      case vBigInt i =>
        have hO := ihO (JsVal.vBigInt i) opts st st' hfree hg hg' hp hp'
        simp only [toJson, isNull]
        rcases h1 : toJsonObj env fuel (JsVal.vBigInt i) opts st none with ⟨r1, so1⟩
        rcases h2 : toJsonObj env fuel (JsVal.vBigInt i) opts st' none with ⟨r2, so2⟩
        rw [h1, h2] at hO
        simp only at hO
        subst hO
        simp [h1, h2]
      case vSym sy =>
        have hO := ihO (JsVal.vSym sy) opts st st' hfree hg hg' hp hp'
        simp only [toJson, isNull]
        rcases h1 : toJsonObj env fuel (JsVal.vSym sy) opts st none with ⟨r1, so1⟩
        rcases h2 : toJsonObj env fuel (JsVal.vSym sy) opts st' none with ⟨r2, so2⟩
        rw [h1, h2] at hO
        simp only at hO
        subst hO
        simp [h1, h2]
      case vFunc fi =>
        have hO := ihO (JsVal.vFunc fi) opts st st' hfree hg hg' hp hp'
        simp only [toJson, isNull]
        rcases h1 : toJsonObj env fuel (JsVal.vFunc fi) opts st none with ⟨r1, so1⟩
        rcases h2 : toJsonObj env fuel (JsVal.vFunc fi) opts st' none with ⟨r2, so2⟩
        rw [h1, h2] at hO
        simp only at hO
        subst hO
        simp [h1, h2]
      case vObj c =>
        have hO := ihO (JsVal.vObj c) opts st st' hfree hg hg' hp hp'
        simp only [toJson, isNull]
        rcases h1 : toJsonObj env fuel (JsVal.vObj c) opts st none with ⟨r1, so1⟩
        rcases h2 : toJsonObj env fuel (JsVal.vObj c) opts st' none with ⟨r2, so2⟩
        rw [h1, h2] at hO
        simp only at hO
        subst hO
        simp [h1, h2]
    · -- toJsonObj
      intro v opts st0 st0' hfree hg hg' hp hp'
      simp only [toJsonObj]
      rw [(rootMark_spec st0 v).2 hp, (rootMark_spec st0' v).2 hp']
      rcases hsb : (resolveSchema env none v).bind (fun sc => sc.serializer)
        with _ | schemaSerializer
      · rcases hcs : serializersGet env.jsonthis.serializers (constructorOf env.heap v)
          with _ | customSerializer
        · rcases htv : serializeTrivialValue env v with ⟨tv, btv⟩
          cases btv with
          | true => simp
          | false =>
            have hF := ihF (resolveSchema env none v) (objFields env v) opts
              ⟨some v, st0.visited⟩ ⟨some v, st0'.visited⟩ hfree
              (schemaBlind_resolve hblind v) (fun h => nomatch h) (fun h => nomatch h)
              (fun p hp2 => ⟨goodS_fields hg p hp2, goodS_fields hg' p hp2⟩)
            rcases h1 : serializeFields env fuel (resolveSchema env none v)
              (objFields env v) opts ⟨some v, st0.visited⟩ with ⟨r1, s1⟩
            rcases h2 : serializeFields env fuel (resolveSchema env none v)
              (objFields env v) opts ⟨some v, st0'.visited⟩ with ⟨r2, s2⟩
            rw [h1, h2] at hF
            simp only at hF
            subst hF
            cases r1 <;> simp [h1, h2]
        · have hbl : notFn4 customSerializer := serializersGet_blind hblind hcs
          have heq := evaluate_blind (c := .callable customSerializer) hbl
            env.ref st0 st0' v opts
          simp [heq]
      · have hbl : notFn4 schemaSerializer := by
          rcases hrs : resolveSchema env none v with _ | sc
          · rw [hrs] at hsb; simp at hsb
          · have hs := schemaBlind_resolve hblind v
            rw [hrs] at hsb hs
            simp at hsb
            exact hs.1 _ hsb
        have heq := evaluate_blind (c := .callable schemaSerializer) hbl
          env.ref st0 st0' v opts
        simp [heq]
    · -- mapToJson
      intro elems opts st st' hfree hp hp' hyp
      cases elems with
      | nil => simp [mapToJson]
      | cons e rest =>
        simp only [mapToJson]
        have hT := ihT e opts st st' hfree (hyp e (List.mem_cons_self _ _)).1
          (hyp e (List.mem_cons_self _ _)).2 hp hp'
        rcases h1 : toJson env fuel e opts (some st) none with ⟨r1, so1⟩
        rcases h2 : toJson env fuel e opts (some st') none with ⟨r2, so2⟩
        rw [h1, h2] at hT
        simp only at hT
        subst hT
        cases r1 with
        | error err => simp [h1, h2]
        | ok o =>
          obtain ⟨st1, hso1, _, hcond1⟩ := ((stateAux env fuel).1 e opts (some st) none).2 st rfl
          rw [h1] at hso1
          simp only at hso1
          subst hso1
          obtain ⟨hv1, hpar1⟩ := hcond1 hp
          obtain ⟨st2, hso2, _, hcond2⟩ := ((stateAux env fuel).1 e opts (some st') none).2 st' rfl
          rw [h2] at hso2
          simp only at hso2
          subst hso2
          obtain ⟨hv2, hpar2⟩ := hcond2 hp'
          have hM := ihM rest opts st1 st2 hfree hpar1 hpar2 (fun e2 he2 =>
            ⟨by rw [hv1]; exact (hyp e2 (List.mem_cons_of_mem _ he2)).1,
             by rw [hv2]; exact (hyp e2 (List.mem_cons_of_mem _ he2)).2⟩)
          rcases hm1 : mapToJson env fuel rest opts (some st1) none with ⟨q1, t1⟩
          rcases hm2 : mapToJson env fuel rest opts (some st2) none with ⟨q2, t2⟩
          rw [hm1, hm2] at hM
          simp only at hM
          subst hM
          cases q1 <;> simp [hm1, hm2]
    · -- serializeFields
      intro schema fields opts st st' hfree hsb hp hp' hyp
      cases fields with
      | nil => simp [serializeFields]
      | cons p rest =>
        obtain ⟨propertyName, value⟩ := p
        simp only [serializeFields]
        have hveq := evaluate_blind (fieldOptionsFor_blind hsb propertyName).1
          env.ref st st' value opts
        rcases hv1 : evaluateJsonTraversalFn (fieldOptionsFor schema propertyName).visible
          env.ref st value opts with e | visible
        · rw [hv1] at hveq
          rw [← hveq]
        · rw [hv1] at hveq
          rw [← hveq]
          by_cases hfv : isFalseVal visible = true
          · simp only [hfv, if_true]
            exact ihF schema rest opts st st' hfree hsb hp hp'
              (fun p hp2 => hyp p (List.mem_cons_of_mem _ hp2))
          · simp only [Bool.not_eq_true] at hfv
            simp only [hfv, Bool.false_eq_true, if_false]
            have hserB := effectiveSerializer_blind hblind hsb propertyName value
            have hS := ihS value st st' (effectiveSerializer env schema propertyName value)
              opts hfree hserB (hyp _ (List.mem_cons_self _ _)).1
              (hyp _ (List.mem_cons_self _ _)).2 hp hp'
            rcases hs1 : serialize env fuel value st
              (effectiveSerializer env schema propertyName value) opts with ⟨r1, s1⟩
            rcases hs2 : serialize env fuel value st'
              (effectiveSerializer env schema propertyName value) opts with ⟨r2, s2⟩
            rw [hs1, hs2] at hS
            simp only at hS
            subst hS
            cases r1 with
            | error e1 => simp [hs1, hs2]
            | ok sv =>
              have hvx1 : s1.visited = st.visited := by
                have hx := ((stateAux env fuel).2.2.2.2.1 value st
                  (effectiveSerializer env schema propertyName value) opts).1
                rw [hs1] at hx
                exact hx
              have hpx1 : s1.parent ≠ none := by
                have hx := ((stateAux env fuel).2.2.2.2.1 value st
                  (effectiveSerializer env schema propertyName value) opts).2 hp
                rw [hs1] at hx
                exact hx
              have hvx2 : s2.visited = st'.visited := by
                have hx := ((stateAux env fuel).2.2.2.2.1 value st'
                  (effectiveSerializer env schema propertyName value) opts).1
                rw [hs2] at hx
                exact hx
              have hpx2 : s2.parent ≠ none := by
                have hx := ((stateAux env fuel).2.2.2.2.1 value st'
                  (effectiveSerializer env schema propertyName value) opts).2 hp'
                rw [hs2] at hx
                exact hx
              have hF := ihF schema rest opts s1 s2 hfree hsb hpx1 hpx2 (fun p hp2 =>
                ⟨by rw [hvx1]; exact (hyp p (List.mem_cons_of_mem _ hp2)).1,
                 by rw [hvx2]; exact (hyp p (List.mem_cons_of_mem _ hp2)).2⟩)
              rcases hf1 : serializeFields env fuel schema rest opts s1 with ⟨q1, t1⟩
              rcases hf2 : serializeFields env fuel schema rest opts s2 with ⟨q2, t2⟩
              rw [hf1, hf2] at hF
              simp only at hF
              subst hF
              cases q1 <;> simp [hf1, hf2]
    · -- serialize
      intro v st st' ser opts hfree hserb hg hg' hp hp'
      cases v
      case vNull => simp [serialize, isNull]
      case vUndefined => simp [serialize, isNull]
      case vArr elems =>
        simp only [serialize, isNull]
        have hE := ihE elems st st' ser opts hfree hserb hp hp'
          (fun e he => ⟨goodS_elem hg he, goodS_elem hg' he⟩)
        rcases he1 : serializeElems env fuel elems st ser opts with ⟨r1, s1⟩
        rcases he2 : serializeElems env fuel elems st' ser opts with ⟨r2, s2⟩
        rw [he1, he2] at hE
        simp only at hE
        subst hE
        cases r1 <;> simp [he1, he2]
      case vBool b =>
        simp only [serialize, isNull]
        rcases hts : trivialShortcut env ser (JsVal.vBool b) with _ | result
        · have hD := ihD (JsVal.vBool b) ⟨st.parent, st.visited.dive⟩
            ⟨st'.parent, st'.visited.dive⟩ ser opts hfree hserb
            (goodS_dive hg) (goodS_dive hg') hp hp' rfl (fun elems h => nomatch h)
          rcases hd1 : serializeDived env fuel (JsVal.vBool b)
            ⟨st.parent, st.visited.dive⟩ ser opts with ⟨r1, s1⟩
          rcases hd2 : serializeDived env fuel (JsVal.vBool b)
            ⟨st'.parent, st'.visited.dive⟩ ser opts with ⟨r2, s2⟩
          rw [hd1, hd2] at hD
          simp only at hD
          subst hD
          simp [hd1, hd2]
        · simp
      case vNum n =>
        simp only [serialize, isNull]
        rcases hts : trivialShortcut env ser (JsVal.vNum n) with _ | result
        · have hD := ihD (JsVal.vNum n) ⟨st.parent, st.visited.dive⟩
            ⟨st'.parent, st'.visited.dive⟩ ser opts hfree hserb
            (goodS_dive hg) (goodS_dive hg') hp hp' rfl (fun elems h => nomatch h)
          rcases hd1 : serializeDived env fuel (JsVal.vNum n)
            ⟨st.parent, st.visited.dive⟩ ser opts with ⟨r1, s1⟩
          rcases hd2 : serializeDived env fuel (JsVal.vNum n)
            ⟨st'.parent, st'.visited.dive⟩ ser opts with ⟨r2, s2⟩
          rw [hd1, hd2] at hD
          simp only at hD
          subst hD
          simp [hd1, hd2]
        · simp
      case vStr s =>
        simp only [serialize, isNull]
        rcases hts : trivialShortcut env ser (JsVal.vStr s) with _ | result
        · have hD := ihD (JsVal.vStr s) ⟨st.parent, st.visited.dive⟩
            ⟨st'.parent, st'.visited.dive⟩ ser opts hfree hserb
            (goodS_dive hg) (goodS_dive hg') hp hp' rfl (fun elems h => nomatch h)
          rcases hd1 : serializeDived env fuel (JsVal.vStr s)
            ⟨st.parent, st.visited.dive⟩ ser opts with ⟨r1, s1⟩
          rcases hd2 : serializeDived env fuel (JsVal.vStr s)
            ⟨st'.parent, st'.visited.dive⟩ ser opts with ⟨r2, s2⟩
          rw [hd1, hd2] at hD
          simp only at hD
          subst hD
          simp [hd1, hd2]
        · simp
      case vBigInt i =>
        simp only [serialize, isNull]
        rcases hts : trivialShortcut env ser (JsVal.vBigInt i) with _ | result
        · have hD := ihD (JsVal.vBigInt i) ⟨st.parent, st.visited.dive⟩
            ⟨st'.parent, st'.visited.dive⟩ ser opts hfree hserb
            (goodS_dive hg) (goodS_dive hg') hp hp' rfl (fun elems h => nomatch h)
          rcases hd1 : serializeDived env fuel (JsVal.vBigInt i)
            ⟨st.parent, st.visited.dive⟩ ser opts with ⟨r1, s1⟩
          rcases hd2 : serializeDived env fuel (JsVal.vBigInt i)
            ⟨st'.parent, st'.visited.dive⟩ ser opts with ⟨r2, s2⟩
          rw [hd1, hd2] at hD
          simp only at hD
          subst hD
          simp [hd1, hd2]
        · simp
      case vSym sy =>
        simp only [serialize, isNull]
        rcases hts : trivialShortcut env ser (JsVal.vSym sy) with _ | result
        · have hD := ihD (JsVal.vSym sy) ⟨st.parent, st.visited.dive⟩
            ⟨st'.parent, st'.visited.dive⟩ ser opts hfree hserb
            (goodS_dive hg) (goodS_dive hg') hp hp' rfl (fun elems h => nomatch h)
          rcases hd1 : serializeDived env fuel (JsVal.vSym sy)
            ⟨st.parent, st.visited.dive⟩ ser opts with ⟨r1, s1⟩
          rcases hd2 : serializeDived env fuel (JsVal.vSym sy)
            ⟨st'.parent, st'.visited.dive⟩ ser opts with ⟨r2, s2⟩
          rw [hd1, hd2] at hD
          simp only at hD
          subst hD
          simp [hd1, hd2]
        · simp
      case vFunc fi =>
        simp only [serialize, isNull]
        rcases hts : trivialShortcut env ser (JsVal.vFunc fi) with _ | result
        · have hD := ihD (JsVal.vFunc fi) ⟨st.parent, st.visited.dive⟩
            ⟨st'.parent, st'.visited.dive⟩ ser opts hfree hserb
            (goodS_dive hg) (goodS_dive hg') hp hp' rfl (fun elems h => nomatch h)
          rcases hd1 : serializeDived env fuel (JsVal.vFunc fi)
            ⟨st.parent, st.visited.dive⟩ ser opts with ⟨r1, s1⟩
          rcases hd2 : serializeDived env fuel (JsVal.vFunc fi)
            ⟨st'.parent, st'.visited.dive⟩ ser opts with ⟨r2, s2⟩
          rw [hd1, hd2] at hD
          simp only at hD
          subst hD
          simp [hd1, hd2]
        · simp
      case vObj c =>
        simp only [serialize, isNull]
        rcases hts : trivialShortcut env ser (JsVal.vObj c) with _ | result
        · have hD := ihD (JsVal.vObj c) ⟨st.parent, st.visited.dive⟩
            ⟨st'.parent, st'.visited.dive⟩ ser opts hfree hserb
            (goodS_dive hg) (goodS_dive hg') hp hp' rfl (fun elems h => nomatch h)
          rcases hd1 : serializeDived env fuel (JsVal.vObj c)
            ⟨st.parent, st.visited.dive⟩ ser opts with ⟨r1, s1⟩
          rcases hd2 : serializeDived env fuel (JsVal.vObj c)
            ⟨st'.parent, st'.visited.dive⟩ ser opts with ⟨r2, s2⟩
          rw [hd1, hd2] at hD
          simp only at hD
          subst hD
          simp [hd1, hd2]
        · simp
    · -- serializeDived
      intro v st st' ser opts hfree hserb hg hg' hp hp' hnull harr
      simp only [serializeDived]
      simp only [hfree, depthExceeded]
      have hvf : (st.visited.visit v).1 = false := visit_false_of_goodS hacyc hg hnull harr
      have hvf' : (st'.visited.visit v).1 = false := visit_false_of_goodS hacyc hg' hnull harr
      rcases hv1 : st.visited.visit v with ⟨f1, m1⟩
      rcases hv2 : st'.visited.visit v with ⟨f2, m2⟩
      rw [hv1] at hvf
      rw [hv2] at hvf'
      simp only at hvf hvf'
      subst hvf
      subst hvf'
      rcases ser with _ | sf
      · have hT := ihT v opts ⟨st.parent, m1⟩ ⟨st'.parent, m2⟩ hfree
          (goodT_after_visit hg harr (by rw [hv1])) (goodT_after_visit hg' harr (by rw [hv2]))
          hp hp'
        rcases hj1 : toJson env fuel v opts (some ⟨st.parent, m1⟩) none with ⟨r1, so1⟩
        rcases hj2 : toJson env fuel v opts (some ⟨st'.parent, m2⟩) none with ⟨r2, so2⟩
        rw [hj1, hj2] at hT
        simp only at hT
        subst hT
        cases so1 <;> cases so2 <;> simp [hv1, hv2, hj1, hj2]
      · have heq := evaluate_blind (c := .callable sf) (hserb sf rfl) env.ref
          ⟨st.parent, m1⟩ ⟨st'.parent, m2⟩ v opts
        simp [hv1, hv2, heq]
    · -- serializeElems
      intro elems st st' ser opts hfree hserb hp hp' hyp
      cases elems with
      | nil => simp [serializeElems]
      | cons e rest =>
        simp only [serializeElems]
        have hS := ihS e st st' ser opts hfree hserb (hyp e (List.mem_cons_self _ _)).1
          (hyp e (List.mem_cons_self _ _)).2 hp hp'
        rcases hs1 : serialize env fuel e st ser opts with ⟨r1, s1⟩
        rcases hs2 : serialize env fuel e st' ser opts with ⟨r2, s2⟩
        rw [hs1, hs2] at hS
        simp only at hS
        subst hS
        cases r1 with
        | error err => simp [hs1, hs2]
        | ok o =>
          have hvx1 : s1.visited = st.visited := by
            have hx := ((stateAux env fuel).2.2.2.2.1 e st ser opts).1
            rw [hs1] at hx
            exact hx
          have hpx1 : s1.parent ≠ none := by
            have hx := ((stateAux env fuel).2.2.2.2.1 e st ser opts).2 hp
            rw [hs1] at hx
            exact hx
          have hvx2 : s2.visited = st'.visited := by
            have hx := ((stateAux env fuel).2.2.2.2.1 e st' ser opts).1
            rw [hs2] at hx
            exact hx
          have hpx2 : s2.parent ≠ none := by
            have hx := ((stateAux env fuel).2.2.2.2.1 e st' ser opts).2 hp'
            rw [hs2] at hx
            exact hx
          have hE := ihE rest s1 s2 ser opts hfree hserb hpx1 hpx2 (fun e2 he2 =>
            ⟨by rw [hvx1]; exact (hyp e2 (List.mem_cons_of_mem _ he2)).1,
             by rw [hvx2]; exact (hyp e2 (List.mem_cons_of_mem _ he2)).2⟩)
          rcases he1 : serializeElems env fuel rest s1 ser opts with ⟨q1, t1⟩
          rcases he2 : serializeElems env fuel rest s2 ser opts with ⟨q2, t2⟩
          rw [he1, he2] at hE
          simp only at hE
          subst hE
          cases q1 <;> simp [he1, he2]

/-- C3: on an acyclic object graph — in particular when the same
object is reachable from two sibling fields, or from two different
sub-trees, without forming a cycle — an entry-point `toJson` call never
raises the circular-reference error; moreover (for state-blind
traversal functions and no effective depth limit) the per-value
serialization procedure yields the same result from any two good
traversal states, so a shared object serializes fully, and identically,
at each of its occurrences. -/
theorem toJson_acyclic_shared_spec :
    (∀ (env : Env) (fuel : Nat) (v : JsVal) (opts : Option ToJsonOptions)
        (schemaIn : Option JsonSchema), Acyclic env.heap →
      isCircular (toJson env fuel v opts none schemaIn).1 = false) ∧
    (∀ (env : Env) (fuel : Nat) (v : JsVal) (st st' : JsonTraversalState)
        (ser : Option (JsonTraversalFn Out)) (opts : Option ToJsonOptions),
      Acyclic env.heap → StateBlind env →
      effectiveMaxDepth opts env.jsonthis.options = none →
      (∀ f, ser = some f → notFn4 f) →
      goodS env.heap st.visited v → goodS env.heap st'.visited v →
      st.parent ≠ none → st'.parent ≠ none →
      (serialize env fuel v st ser opts).1 = (serialize env fuel v st' ser opts).1) :=
  ⟨fun env fuel v opts schemaIn hacyc =>
    (circAux env hacyc fuel).1 v opts none schemaIn (fun _ h => nomatch h),
   fun env fuel v st st' ser opts hacyc hblind hfree hserb hg hg' hp hp' =>
    (indAux env hacyc hblind fuel).2.2.2.2.1 v st st' ser opts hfree hserb hg hg' hp hp'⟩

/-- A heap in which the object at address 2 is shared by the two
sibling fields of the object at address 1, without any cycle. -/
def sharedHeap : Heap :=
  [(1, ⟨tagU, false, [("a", .vObj 2), ("b", .vObj 2)]⟩),
   (2, ⟨tagU, false, [("n", .vNum 7)]⟩)]

def sharedEnv : Env :=
  ⟨⟨0⟩, ⟨⟨false, none, none, none, none⟩, []⟩, fun _ => none,
    ⟨fun s => s, fun s => s, fun s => s⟩, sharedHeap⟩

theorem sharedHeap_edge {a b : Nat} (h : heapEdge sharedEnv.heap a b) :
    a = 1 ∧ b = 2 := by
  obtain ⟨node, hget, hb⟩ := h
  by_cases h1 : 1 = a
  · subst h1
    have hnode : node = ⟨tagU, false, [("a", .vObj 2), ("b", .vObj 2)]⟩ := by
      simp [sharedEnv, sharedHeap, heapGet, List.find?] at hget
      exact hget.symm
    subst hnode
    refine ⟨rfl, ?_⟩
    simpa [nodeAddrs, addrsInList, addrsIn] using hb
  · have hb1 : (1 == a) = false := by simpa using h1
    by_cases h2 : 2 = a
    · subst h2
      have hnode : node = ⟨tagU, false, [("n", .vNum 7)]⟩ := by
        simp [sharedEnv, sharedHeap, heapGet, List.find?, hb1] at hget
        exact hget.symm
      subst hnode
      simp [nodeAddrs, addrsInList, addrsIn] at hb
    · have hb2 : (2 == a) = false := by simpa using h2
      simp [sharedEnv, sharedHeap, heapGet, List.find?, hb1, hb2] at hget

theorem acyclic_sharedHeap : Acyclic sharedEnv.heap := by
  intro a hcyc
  have key : ∀ x y, Relation.TransGen (heapEdge sharedEnv.heap) x y → x = 1 ∧ y = 2 := by
    intro x y h
    induction h with
    | single h => exact sharedHeap_edge h
    | tail hxy hyz ih =>
      obtain ⟨hy1, _⟩ := sharedHeap_edge hyz
      obtain ⟨hx1, hb2⟩ := ih
      omega
  obtain ⟨h1, h2⟩ := key a a hcyc
  omega

/-- Witness for C3: in the shared-sibling heap the entry-point call on
the root raises no circular-reference error, and serializing the shared
object from two different good states (different parents and depths)
gives identical results. -/
theorem toJson_acyclic_shared_spec_witness :
    isCircular (toJson sharedEnv 20 (.vObj 1) none none none).1 = false ∧
    (serialize sharedEnv 20 (.vObj 2) ⟨some (.vObj 1), VisitMap.init⟩ none none).1 =
      (serialize sharedEnv 20 (.vObj 2)
        ⟨some (.vObj 9), VisitMap.init.dive⟩ none none).1 :=
  ⟨toJson_acyclic_shared_spec.1 sharedEnv 20 (.vObj 1) none none acyclic_sharedHeap,
   toJson_acyclic_shared_spec.2 sharedEnv 20 (.vObj 2)
     ⟨some (.vObj 1), VisitMap.init⟩ ⟨some (.vObj 9), VisitMap.init.dive⟩ none none
     acyclic_sharedHeap
     ⟨fun _ => trivial, fun _ hp => nomatch hp⟩
     rfl
     (fun _ hf => nomatch hf)
     (fun _ hw => (memLive_init hw).elim)
     (fun _ hw => (memLive_init (memLive_dive hw)).elim)
     (fun h => nomatch h) (fun h => nomatch h)⟩

end Jsonthis
